import Mathlib

/-!
Verification of the code-bridge streaming translator.

The development shallowly embeds the two core components of the repository:

* the incremental section extractor and job orchestrator of
  `internal/code_translator/code_translator_service.go` together with the
  producer goroutine of `internal/api/gin_server.go` (`TranslateCode`), and
* the job broadcast hub of the `sse` package (`Hub`, `Stream`, `Client`,
  and the operations `Create`, `AddClient`, `RemoveClient`, `Send`,
  `cleanup`).

Go strings are modelled as `List Char`; all marker and sentinel text is
ASCII, so character offsets coincide with Go's byte offsets.  Concurrency
is modelled by explicit state passing: each hub operation is a function on
the hub state, and a producer run is the fold of its `Send` calls.
-/

namespace CodeBridge

/-- Go strings, modelled as lists of characters. -/
abbrev Str := List Char

/-- Model of Go `strings.ToLower`, restricted to ASCII case mapping (all
text compared case-insensitively by the program is ASCII). -/
def goToLower (s : Str) : Str := s.map Char.toLower

/-- Model of Go `unicode.IsSpace` on the Latin-1 range: space, tab,
newline, vertical tab, form feed, carriage return, NEL and NBSP. -/
def goIsSpace (c : Char) : Bool :=
  c = ' ' || c = '\t' || c = '\n' || c = Char.ofNat 11 || c = Char.ofNat 12 ||
  c = '\r' || c = Char.ofNat 0x85 || c = Char.ofNat 0xA0

/-- Model of Go `strings.TrimSpace`: removes leading and trailing
whitespace. -/
def goTrimSpace (s : Str) : Str :=
  ((s.dropWhile goIsSpace).reverse.dropWhile goIsSpace).reverse

/-- Least index at which `pat` occurs in the searched list (an occurrence
at `i` means `pat` is a prefix of the suffix starting at `i`).  This is the
search underlying Go `strings.Index`. -/
def firstMatch (pat : Str) : Str → Option Nat
  | [] => if pat.isEmpty then some 0 else none
  | c :: rest =>
    if pat.isPrefixOf (c :: rest) then some 0
    else (firstMatch pat rest).map (· + 1)

/-- Greatest index at which `pat` occurs in the searched list.  This is the
search underlying Go `strings.LastIndex`. -/
def lastMatch (pat : Str) : Str → Option Nat
  | [] => if pat.isEmpty then some 0 else none
  | c :: rest =>
    match lastMatch pat rest with
    | some i => some (i + 1)
    | none => if pat.isPrefixOf (c :: rest) then some 0 else none

/-- Model of Go `strings.Index`: first occurrence, `-1` when absent. -/
def goIndex (s pat : Str) : Int :=
  match firstMatch pat s with
  | some i => (i : Int)
  | none => -1

/-- Model of Go `strings.LastIndex`: last occurrence, `-1` when absent. -/
def goLastIndex (s pat : Str) : Int :=
  match lastMatch pat s with
  | some i => (i : Int)
  | none => -1

/-- Model of Go `strings.TrimPrefix`: drops `pat` once when it is a prefix
of `s`, otherwise returns `s` unchanged. -/
def goTrimPrefixOnce (s pat : Str) : Str :=
  if pat.isPrefixOf s then s.drop pat.length else s

/-- Model of Go `strings.TrimSuffix`: drops `pat` once when it is a suffix
of `s`, otherwise returns `s` unchanged. -/
def goTrimSuffixOnce (s pat : Str) : Str :=
  if pat.isSuffixOf s then s.take (s.length - pat.length) else s

/-- Section marker `=== explanation ===` (lower-case form). -/
def explMarker : Str := "=== explanation ===".toList

/-- Section marker `=== translation notes ===` (lower-case form). -/
def notesMarker : Str := "=== translation notes ===".toList

/-- Section marker `=== translated code ===` (lower-case form). -/
def codeMarker : Str := "=== translated code ===".toList

/-- Translation of `detectCurrentSection` from
`code_translator_service.go`: the active section is decided by the
rightmost marker occurrence in the lower-cased accumulated text. -/
def detectCurrentSection (text : Str) : String :=
  let lower := goToLower text
  let lastExplanation := goLastIndex lower explMarker
  let lastNotes := goLastIndex lower notesMarker
  let lastCode := goLastIndex lower codeMarker
  if lastCode > lastNotes ∧ lastCode > lastExplanation then "code"
  else if lastNotes > lastExplanation ∧ lastNotes > lastCode then "notes"
  else if lastExplanation ≥ 0 then "explanation"
  else ""

/-- The fixed chain of `strings.TrimPrefix` calls (twelve tagged fences in
source order, then the bare fence) followed by the single
`strings.TrimSuffix` of a closing fence, exactly as in the `code` branch of
`extractSectionContent`. -/
def codeFences : List Str :=
  ["```javascript", "```typescript", "```python", "```go", "```rust",
   "```java", "```csharp", "```cpp", "```php", "```ruby", "```swift",
   "```kotlin", "```"].map String.toList

/-- Fence removal applied to the code section: the `TrimPrefix` chain in
source order, then one `TrimSuffix` of a bare closing fence. -/
def stripCodeFences (content : Str) : Str :=
  goTrimSuffixOnce (codeFences.foldl goTrimPrefixOnce content) "```".toList

/-- Shared body of the `explanation` and `notes` branches of
`extractSectionContent` (the Go switch inlines this body twice, verbatim
up to the marker names): locate the first occurrence of `m` in the
lower-cased text, then take the original text from the end of that
occurrence up to the first subsequent occurrence of `next` (or to
end-of-text when `next` does not occur there), and trim whitespace. -/
def extractBetween (text : Str) (m next : Str) : Str :=
  let lowerText := goToLower text
  let start := goIndex lowerText m
  if start = -1 then []
  else
    let start := (start + m.length).toNat
    let stop := goIndex (lowerText.drop start) next
    let stop := if stop = -1 then ((text.length : Int) - (start : Int)) else stop
    goTrimSpace ((text.drop start).take stop.toNat)

/-- Translation of `extractSectionContent` from
`code_translator_service.go`. -/
def extractSectionContent (text : Str) (sec : String) : Str :=
  let lowerText := goToLower text
  if sec = "explanation" then
    extractBetween text explMarker notesMarker
  else if sec = "notes" then
    extractBetween text notesMarker codeMarker
  else if sec = "code" then
    let start := goIndex lowerText codeMarker
    if start = -1 then []
    else
      let start := (start + codeMarker.length).toNat
      let content := goTrimSpace (text.drop start)
      goTrimSpace (stripCodeFences content)
  else []

/-- One structured chunk of the translation stream (`StreamChunk` in
`code_translator_service.go`). -/
structure StreamChunk where
  type : String
  content : Str
  delta : Bool
deriving DecidableEq, Repr

/-- Mutable state of the streaming callback inside
`CodeTranslatorService.TranslateCode`: the accumulated provider text, the
currently active section and the `sectionBuffer` builder. -/
structure OrchState where
  fullResponse : Str
  currentSection : String
  sectionBuffer : Str
deriving DecidableEq, Repr

/-- Initial callback state of a job (empty builders, no active section). -/
def initOrchState : OrchState := ⟨[], "", []⟩

/-- Translation of one execution of the streaming callback in
`TranslateCode` on a provider fragment: accumulate the fragment, emit a
final chunk for the previous section when the active section changed (and
reset the section buffer), then emit a delta chunk for the active section
when its extracted content is non-empty and differs from the section
buffer, appending the content to the buffer.  Returns the new state and
the chunks handed to `onChunk`, in order.  The sink used by the server
(`Hub.Send`) never returns an error, so the error-propagating branches of
the callback are unreachable and are not modelled. -/
def orchStep (st : OrchState) (chunk : Str) : OrchState × List StreamChunk :=
  let fullResponse := st.fullResponse ++ chunk
  let newSection := detectCurrentSection fullResponse
  let finalsAndBuf :=
    if newSection ≠ st.currentSection ∧ st.currentSection ≠ "" then
      let content := extractSectionContent fullResponse st.currentSection
      ((if content ≠ [] then [StreamChunk.mk st.currentSection content false] else []),
       ([] : Str))
    else ([], st.sectionBuffer)
  let deltasAndBuf :=
    if newSection ≠ "" then
      let content := extractSectionContent fullResponse newSection
      if content ≠ [] ∧ content ≠ finalsAndBuf.2 then
        ([StreamChunk.mk newSection content true], finalsAndBuf.2 ++ content)
      else ([], finalsAndBuf.2)
    else ([], finalsAndBuf.2)
  (⟨fullResponse, newSection, deltasAndBuf.2⟩, finalsAndBuf.1 ++ deltasAndBuf.1)

/-- Folding the streaming callback over a whole fragment sequence,
collecting every chunk emitted, in order. -/
def orchRun : OrchState → List Str → OrchState × List StreamChunk
  | st, [] => (st, [])
  | st, f :: fs =>
    let step := orchStep st f
    let rest := orchRun step.1 fs
    (rest.1, step.2 ++ rest.2)

/-- Translation of `sendFinalSections`: after the provider succeeds, a
final (non-delta) chunk is emitted for each of the three sections whose
extracted content is non-empty, in the fixed order explanation, notes,
code. -/
def sendFinalSections (text : Str) : List StreamChunk :=
  (["explanation", "notes", "code"] : List String).filterMap fun sec =>
    let content := extractSectionContent text sec
    if content ≠ [] then some (StreamChunk.mk sec content false) else none

/-- Result of one `CodeTranslatorService.TranslateCode` producer
invocation.  The provider behaviour is abstracted as the list of fragments
it delivers before finishing, plus an optional error message when it fails
after those fragments (`StreamCompletion` returning a non-nil error).  On
provider failure `TranslateCode` returns the error immediately and
`sendFinalSections` is not reached; on success the final sections are
appended. -/
def translateChunks (fragments : List Str) (providerErr : Option Str) :
    List StreamChunk × Option Str :=
  let run := orchRun initOrchState fragments
  match providerErr with
  | some e => (run.2, some e)
  | none => (run.2 ++ sendFinalSections run.1.fullResponse, none)

/-- Escape of a single character inside a JSON string literal, as produced
by Go `encoding/json` for the characters that can occur here (Go
additionally escapes `<`, `>`, `&` and other control characters; no claim
depends on those). -/
def jsonEscapeChar (c : Char) : Str :=
  if c = '"' then ['\\', '"']
  else if c = '\\' then ['\\', '\\']
  else if c = '\n' then ['\\', 'n']
  else if c = '\r' then ['\\', 'r']
  else if c = '\t' then ['\\', 't']
  else [c]

/-- JSON string-body escape. -/
def jsonEscape (s : Str) : Str := s.foldr (fun c acc => jsonEscapeChar c ++ acc) []

/-- Model of `json.Marshal` on a `StreamChunk`: fields in declaration
order, with `delta` omitted when false (its tag carries `omitempty`). -/
def jsonMarshalChunk (c : StreamChunk) : Str :=
  "\x7b\"type\":\"".toList ++ c.type.toList ++ "\",\"content\":\"".toList ++
    jsonEscape c.content ++ "\"".toList ++
    (if c.delta then ",\"delta\":true".toList else []) ++ "\x7d".toList

/-- The terminal sentinel string `[DONE]` sent by the producer goroutine in
`gin_server.go`. -/
def doneMsg : Str := "[DONE]".toList

/-- The in-band failure message `fmt.Sprintf("ERROR: %v", er)` sent by the
producer goroutine on a translation error. -/
def errorMsgFor (e : Str) : Str := "ERROR: ".toList ++ e

/-- The full ordered sequence of messages the producer goroutine of
`GinServer.TranslateCode` passes to `Hub.Send` for one job: every chunk
marshalled to JSON, then `ERROR: <err>` when the translation failed, then
always the `[DONE]` sentinel. -/
def ginSinkMessages (fragments : List Str) (providerErr : Option Str) : List Str :=
  let res := translateChunks fragments providerErr
  res.1.map jsonMarshalChunk ++
    (match res.2 with
     | some e => [errorMsgFor e]
     | none => []) ++ [doneMsg]

/-- Base value of the `sectionBuffer` builder during one callback
execution: it is reset to empty exactly when the active section changed
away from a non-empty previous section, and kept otherwise (the delta
comparison and the append both work against this base). -/
def orchBaseBuffer (st : OrchState) (f : Str) : Str :=
  if detectCurrentSection (st.fullResponse ++ f) ≠ st.currentSection ∧
      st.currentSection ≠ "" then []
  else st.sectionBuffer

/-- Capacity of a subscriber channel (`make(chan string, 200)` in
`AddClient`). -/
def clientCap : Nat := 200

/-- One subscriber of a job stream.  The Go `Client` owns a buffered
channel; `ch` models the messages currently sitting in that channel (the
reader draining the channel concurrently is not modelled, so `ch` is also
the full sequence of messages this subscriber has received). -/
structure Client where
  ch : List Str
deriving DecidableEq, Repr

/-- Per-job stream state of the hub (`Stream` in the sse package):
attached subscribers, the shared append-only message buffer and the sealed
flag `done`. -/
structure Stream where
  clients : List Client
  buffer : List Str
  done : Bool
deriving DecidableEq, Repr

/-- Freshly allocated stream: no subscribers, empty buffer, not sealed. -/
def freshStream : Stream := ⟨[], [], false⟩

/-- The hub registry: job id to stream.  The Go map is modelled as an
association list (every hub operation keeps its keys distinct). -/
structure Hub where
  chans : List (String × Stream)
deriving DecidableEq, Repr

/-- The empty hub produced by `NewHub`. -/
def newHub : Hub := ⟨[]⟩

/-- Registry lookup, `h.chans[id]`. -/
def Hub.findStream (h : Hub) (id : String) : Option Stream :=
  (h.chans.find? fun p => p.1 = id).map (·.2)

/-- Replacing the stream stored under an existing id. -/
def Hub.setStream (h : Hub) (id : String) (s : Stream) : Hub :=
  ⟨h.chans.map fun p => if p.1 = id then (p.1, s) else p⟩

/-- Translation of `Hub.Create`: allocate a fresh stream unless the id is
already present. -/
def Hub.create (h : Hub) (id : String) : Hub :=
  match h.findStream id with
  | some _ => h
  | none => ⟨h.chans ++ [(id, freshStream)]⟩

/-- Translation of `Hub.AddClient`: look the stream up, allocating a fresh
one if absent; append a new client and synchronously replay the whole
buffer into its channel.  The Go replay loop sends blockingly
(`client.Ch <- msg`), so every buffered message lands in the channel; the
new client's channel is therefore exactly the buffer.  Returns the updated
hub and the new client. -/
def Hub.addClient (h : Hub) (id : String) : Hub × Client :=
  let stream := (h.findStream id).getD freshStream
  let ensured : Hub :=
    match h.findStream id with
    | some _ => h
    | none => ⟨h.chans ++ [(id, freshStream)]⟩
  let client : Client := ⟨stream.buffer⟩
  (ensured.setStream id { stream with clients := stream.clients ++ [client] }, client)

/-- Non-blocking push of `Hub.Send` into one subscriber channel
(`select`/`default`): the message is enqueued when the channel has room
and skipped for that subscriber otherwise. -/
def pushClient (msg : Str) (c : Client) : Client :=
  if c.ch.length < clientCap then ⟨c.ch ++ [msg]⟩ else c

/-- Per-stream effect of `Hub.Send` once the stream is found: the message
is appended to the buffer first, the stream is marked done when the
message is the sentinel, then the message is pushed non-blockingly to
every attached client. -/
def streamSend (s : Stream) (msg : Str) : Stream :=
  let s := { s with buffer := s.buffer ++ [msg] }
  let s := if msg = doneMsg then { s with done := true } else s
  { s with clients := s.clients.map (pushClient msg) }

/-- Translation of `Hub.Send`: a missing stream is a silent no-op
returning a nil error; otherwise the per-stream effect is applied.  The
returned `Option Str` is the Go `error` result, which is always nil. -/
def Hub.send (h : Hub) (id : String) (msg : Str) : Hub × Option Str :=
  match h.findStream id with
  | none => (h, none)
  | some s => (h.setStream id (streamSend s msg), none)

/-- Removal of the first occurrence of a client from a subscriber list
(the loop of `Hub.RemoveClient`). -/
def dropFirstClient (c : Client) : List Client → List Client
  | [] => []
  | x :: xs => if x = c then xs else x :: dropFirstClient c xs

/-- Translation of `Hub.RemoveClient`: detach the first matching client of
the stream, a no-op when the stream is absent.  Go compares client
pointers; distinct `AddClient` results are distinct pointers, modelled
here by removing the first structurally equal client. -/
def Hub.removeClient (h : Hub) (id : String) (c : Client) : Hub :=
  match h.findStream id with
  | none => h
  | some s => h.setStream id { s with clients := dropFirstClient c s.clients }

/-- Translation of `Hub.cleanup`: the periodic sweep deletes every stream
that is done and has no attached clients. -/
def Hub.cleanup (h : Hub) : Hub :=
  ⟨h.chans.filter fun p => ¬(p.2.done = true ∧ p.2.clients.length = 0)⟩

/-- Folding a sequence of `Hub.Send` calls for one job over a hub state
(the producer goroutine's calls, in order). -/
def hubSendAll (h : Hub) (id : String) (msgs : List Str) : Hub :=
  msgs.foldl (fun acc m => (acc.send id m).1) h

/-- The three section names, in the fixed sequence order used by the
protocol. -/
def sectionNames : List String := ["explanation", "notes", "code"]

/-- The marker literal belonging to a section name. -/
def markerOf (sec : String) : Str :=
  if sec = "explanation" then explMarker
  else if sec = "notes" then notesMarker
  else codeMarker

/-- ASCII letter test, used to delimit a language name in a code fence. -/
def isAsciiLetter (c : Char) : Bool :=
  ('a' ≤ c && c ≤ 'z') || ('A' ≤ c && c ≤ 'Z')

/-- Modelled from the spec: fence removal as the specification words it —
"a single optional leading fence tagged with a language name, and a single
optional trailing fence, both stripped".  A leading fence is three
backticks followed by a non-empty language name (a run of letters); the
whole tagged fence is removed.  One trailing fence is removed, and the
result is trimmed. -/
def claimStripFence (c : Str) : Str :=
  let c₁ :=
    if "```".toList.isPrefixOf c ∧ (c.drop 3).takeWhile isAsciiLetter ≠ [] then
      (c.drop 3).dropWhile isAsciiLetter
    else c
  goTrimSpace (goTrimSuffixOnce c₁ "```".toList)

/-- Modelled from the spec: extraction of the code section as the claim
words it — the text after the marker, trimmed, with one tagged leading
fence and one trailing fence stripped. -/
def claimExtractCode (text : Str) : Str :=
  match firstMatch codeMarker (goToLower text) with
  | none => []
  | some i => claimStripFence (goTrimSpace (text.drop (i + codeMarker.length)))

/-- Provider fragments of a run in which the active section changes once:
the explanation arrives first, then the notes marker. -/
def c1Fragments : List Str :=
  ["=== explanation ===\nA", "\n=== translation notes ===\nB"].map String.toList

/-- Single provider fragment populating the explanation section. -/
def c2Fragment : Str := "=== explanation ===\nA".toList

/-- A provider error message. -/
def c2Err : Str := "boom".toList

/-- Raw text whose code section is wrapped in a fence tagged with a
language name outside the recognized list. -/
def c6Input : Str := "=== translated code ===\n```haskell\nx\n```".toList

/-- Hub with one freshly created job stream. -/
def c3Hub0 : Hub := newHub.create "j"

/-- The same hub after the terminal sentinel has been sent (sealing the
stream). -/
def c3Hub1 : Hub := (c3Hub0.send "j" doneMsg).1

/-- The same hub after one further `Send` following the seal. -/
def c3Hub2 : Hub := (c3Hub1.send "j" "x".toList).1

/-! ### Occurrence characterizations of the string searches

An occurrence of `pat` at index `i` of `l` is `pat <+: l.drop i`.  The
lemmas below characterize `firstMatch`/`lastMatch` (hence Go
`strings.Index`/`strings.LastIndex`) as the least/greatest occurrence. -/

lemma isPrefixOf_eq_true_iff {p l : Str} : p.isPrefixOf l = true ↔ p <+: l :=
  List.isPrefixOf_iff_prefix

lemma firstMatch_some_occurs {p l : Str} {i : Nat}
    (h : firstMatch p l = some i) : p <+: l.drop i := by
  induction l generalizing i with
  | nil =>
    unfold firstMatch at h
    split at h
    · rename_i he
      simp only [Option.some.injEq] at h
      subst h
      have : p = [] := by simpa using he
      simp [this]
    · exact absurd h (by simp)
  | cons c rest ih =>
    unfold firstMatch at h
    split at h
    · simp only [Option.some.injEq] at h
      subst h
      exact isPrefixOf_eq_true_iff.mp (by assumption)
    · rcases Option.map_eq_some'.mp h with ⟨i', hi', rfl⟩
      simpa [List.drop_succ_cons] using ih hi'

lemma firstMatch_min {p l : Str} {i j : Nat}
    (h : firstMatch p l = some i) (hj : p <+: l.drop j) : i ≤ j := by
  induction l generalizing i j with
  | nil =>
    unfold firstMatch at h
    split at h
    · simp only [Option.some.injEq] at h
      omega
    · exact absurd h (by simp)
  | cons c rest ih =>
    unfold firstMatch at h
    split at h
    · simp only [Option.some.injEq] at h
      omega
    · rcases Option.map_eq_some'.mp h with ⟨i', hi', rfl⟩
      cases j with
      | zero =>
        rename_i hguard
        exact absurd (isPrefixOf_eq_true_iff.mpr (by simpa using hj)) (by simpa using hguard)
      | succ j' =>
        have := ih hi' (by simpa [List.drop_succ_cons] using hj)
        omega

lemma firstMatch_none {p l : Str} (h : firstMatch p l = none) (j : Nat) :
    ¬ p <+: l.drop j := by
  induction l generalizing j with
  | nil =>
    unfold firstMatch at h
    split at h
    · exact absurd h (by simp)
    · intro hc
      rename_i hne
      have : p = [] := List.prefix_nil.mp (by simpa using hc)
      simp [this] at hne
  | cons c rest ih =>
    unfold firstMatch at h
    split at h
    · exact absurd h (by simp)
    · cases j with
      | zero =>
        intro hc
        rename_i hguard
        exact absurd (isPrefixOf_eq_true_iff.mpr (by simpa using hc)) (by simpa using hguard)
      | succ j' =>
        simpa [List.drop_succ_cons] using ih (by simpa using h) j'

lemma occurs_firstMatch {p l : Str} {j : Nat} (hj : p <+: l.drop j) :
    ∃ i, firstMatch p l = some i ∧ i ≤ j ∧ p <+: l.drop i := by
  cases hfm : firstMatch p l with
  | none => exact absurd hj (firstMatch_none hfm j)
  | some i => exact ⟨i, rfl, firstMatch_min hfm hj, firstMatch_some_occurs hfm⟩

lemma lastMatch_some_occurs {p l : Str} {i : Nat}
    (h : lastMatch p l = some i) : p <+: l.drop i := by
  induction l generalizing i with
  | nil =>
    unfold lastMatch at h
    split at h
    · rename_i he
      simp only [Option.some.injEq] at h
      subst h
      have : p = [] := by simpa using he
      simp [this]
    · exact absurd h (by simp)
  | cons c rest ih =>
    cases hr : lastMatch p rest with
    | some i' =>
      simp only [lastMatch, hr, Option.some.injEq] at h
      subst h
      simpa [List.drop_succ_cons] using ih hr
    | none =>
      simp only [lastMatch, hr] at h
      split at h
      · simp only [Option.some.injEq] at h
        subst h
        exact isPrefixOf_eq_true_iff.mp (by assumption)
      · exact absurd h (by simp)

lemma lastMatch_none {p l : Str} (h : lastMatch p l = none) (j : Nat) :
    ¬ p <+: l.drop j := by
  induction l generalizing j with
  | nil =>
    unfold lastMatch at h
    split at h
    · exact absurd h (by simp)
    · intro hc
      rename_i hne
      have : p = [] := List.prefix_nil.mp (by simpa using hc)
      simp [this] at hne
  | cons c rest ih =>
    cases hr : lastMatch p rest with
    | some i' => simp [lastMatch, hr] at h
    | none =>
      simp only [lastMatch, hr] at h
      split at h
      · exact absurd h (by simp)
      · cases j with
        | zero =>
          intro hc
          rename_i hguard
          exact absurd (isPrefixOf_eq_true_iff.mpr (by simpa using hc)) (by simpa using hguard)
        | succ j' =>
          simpa [List.drop_succ_cons] using ih hr j'

lemma lastMatch_max {p l : Str} {i j : Nat} (hp : p ≠ [])
    (h : lastMatch p l = some i) (hj : p <+: l.drop j) : j ≤ i := by
  induction l generalizing i j with
  | nil =>
    unfold lastMatch at h
    split at h
    · rename_i he
      exact absurd (by simpa using he) hp
    · exact absurd h (by simp)
  | cons c rest ih =>
    cases hr : lastMatch p rest with
    | some i' =>
      simp only [lastMatch, hr, Option.some.injEq] at h
      subst h
      cases j with
      | zero => omega
      | succ j' =>
        have := ih hr (by simpa [List.drop_succ_cons] using hj)
        omega
    | none =>
      simp only [lastMatch, hr] at h
      split at h
      · simp only [Option.some.injEq] at h
        subst h
        cases j with
        | zero => omega
        | succ j' =>
          exact absurd (by simpa [List.drop_succ_cons] using hj) (lastMatch_none hr j')
      · exact absurd h (by simp)


lemma occurs_lastMatch {p l : Str} {j : Nat} (hp : p ≠ []) (hj : p <+: l.drop j) :
    ∃ i, lastMatch p l = some i ∧ j ≤ i ∧ p <+: l.drop i := by
  cases hfm : lastMatch p l with
  | none => exact absurd hj (lastMatch_none hfm j)
  | some i => exact ⟨i, rfl, lastMatch_max hp hfm hj, lastMatch_some_occurs hfm⟩

lemma goLastIndex_eq_coe {p l : Str} {i : Nat} (h : lastMatch p l = some i) :
    goLastIndex l p = (i : Int) := by simp [goLastIndex, h]

lemma goLastIndex_eq_neg {p l : Str} (h : lastMatch p l = none) :
    goLastIndex l p = -1 := by simp [goLastIndex, h]

lemma goLastIndex_neg_le (l p : Str) : -1 ≤ goLastIndex l p := by
  cases h : lastMatch p l with
  | none => simp [goLastIndex_eq_neg h]
  | some i =>
    rw [goLastIndex_eq_coe h]
    have : (0 : Int) ≤ (i : Int) := Int.natCast_nonneg i
    omega

/-- `LastIndex` comparison as an occurrence-domination statement: marker
`p₁`'s last occurrence is strictly left of `p₂`'s last occurrence exactly
when `p₂` occurs somewhere to the right of every occurrence of `p₁`. -/
lemma lastIndex_lt {p₁ p₂ l : Str} (h₁ : p₁ ≠ []) (h₂ : p₂ ≠ []) :
    goLastIndex l p₁ < goLastIndex l p₂ ↔
      ∃ i, lastMatch p₂ l = some i ∧ ∀ j, p₁ <+: l.drop j → j < i := by
  cases hm₂ : lastMatch p₂ l with
  | none =>
    rw [goLastIndex_eq_neg hm₂]
    constructor
    · intro hlt
      have := goLastIndex_neg_le l p₁
      omega
    · rintro ⟨i, hi, -⟩
      exact absurd hi (by simp)
  | some i₂ =>
    rw [goLastIndex_eq_coe hm₂]
    cases hm₁ : lastMatch p₁ l with
    | none =>
      rw [goLastIndex_eq_neg hm₁]
      constructor
      · intro _
        exact ⟨i₂, rfl, fun j hj => absurd hj (lastMatch_none hm₁ j)⟩
      · intro _
        have : (0 : Int) ≤ (i₂ : Int) := Int.natCast_nonneg i₂
        omega
    | some i₁ =>
      rw [goLastIndex_eq_coe hm₁]
      constructor
      · intro hlt
        refine ⟨i₂, rfl, fun j hj => ?_⟩
        have hle := lastMatch_max h₁ hm₁ hj
        have : i₁ < i₂ := by exact_mod_cast hlt
        omega
      · rintro ⟨i, hi, hall⟩
        have hii : i = i₂ := (Option.some.inj hi).symm
        subst hii
        have := hall i₁ (lastMatch_some_occurs hm₁)
        exact_mod_cast this

/-- The first branch condition of `detectCurrentSection`, characterized:
`m`'s last index beats both others exactly when some occurrence of `m`
lies strictly right of every occurrence of the other two markers. -/
lemma dominates_iff {m m₁ m₂ l : Str} (hm : m ≠ []) (h₁ : m₁ ≠ []) (h₂ : m₂ ≠ []) :
    (goLastIndex l m₁ < goLastIndex l m ∧ goLastIndex l m₂ < goLastIndex l m) ↔
      ∃ i, m <+: l.drop i ∧ (∀ j, m₁ <+: l.drop j → j < i) ∧
        (∀ j, m₂ <+: l.drop j → j < i) := by
  constructor
  · rintro ⟨ha, hb⟩
    rcases (lastIndex_lt h₁ hm).mp ha with ⟨i, hi, hall₁⟩
    rcases (lastIndex_lt h₂ hm).mp hb with ⟨i', hi', hall₂⟩
    have : i = i' := by
      rw [hi] at hi'
      exact Option.some.inj hi'
    subst this
    exact ⟨i, lastMatch_some_occurs hi, hall₁, hall₂⟩
  · rintro ⟨i, hocc, hall₁, hall₂⟩
    rcases occurs_lastMatch hm hocc with ⟨i₀, hi₀, hle, -⟩
    refine ⟨(lastIndex_lt h₁ hm).mpr ⟨i₀, hi₀, fun j hj => ?_⟩,
      (lastIndex_lt h₂ hm).mpr ⟨i₀, hi₀, fun j hj => ?_⟩⟩
    · exact lt_of_lt_of_le (hall₁ j hj) hle
    · exact lt_of_lt_of_le (hall₂ j hj) hle

/-- Two patterns that are not prefixes of one another can never occur at
the same index of the same text. -/
lemma no_common_occurrence {m₁ m₂ l : Str} {i : Nat} (h : ¬ m₁ <+: m₂)
    (h' : ¬ m₂ <+: m₁) (o₁ : m₁ <+: l.drop i) (o₂ : m₂ <+: l.drop i) : False := by
  rcases List.prefix_or_prefix_of_prefix o₁ o₂ with hc | hc
  · exact h hc
  · exact h' hc

/-- Distinct markers can therefore never share a `LastIndex` value other
than `-1`. -/
lemma goLastIndex_eq_imp {m₁ m₂ : Str} (h : ¬ m₁ <+: m₂) (h' : ¬ m₂ <+: m₁)
    (l : Str) : goLastIndex l m₁ = goLastIndex l m₂ → goLastIndex l m₁ = -1 := by
  intro heq
  cases hm₁ : lastMatch m₁ l with
  | none => exact goLastIndex_eq_neg hm₁
  | some i =>
    cases hm₂ : lastMatch m₂ l with
    | none =>
      rw [goLastIndex_eq_coe hm₁, goLastIndex_eq_neg hm₂] at heq
      omega
    | some j =>
      rw [goLastIndex_eq_coe hm₁, goLastIndex_eq_coe hm₂] at heq
      have hij : i = j := by exact_mod_cast heq
      subst hij
      exact absurd (lastMatch_some_occurs hm₂)
        (fun o₂ => no_common_occurrence h h' (lastMatch_some_occurs hm₁) o₂)

lemma explMarker_ne_nil : explMarker ≠ [] := by decide

lemma notesMarker_ne_nil : notesMarker ≠ [] := by decide

lemma codeMarker_ne_nil : codeMarker ≠ [] := by decide

lemma expl_notes_no_pre : ¬ explMarker <+: notesMarker ∧ ¬ notesMarker <+: explMarker := by
  decide

lemma expl_code_no_pre : ¬ explMarker <+: codeMarker ∧ ¬ codeMarker <+: explMarker := by
  decide

lemma notes_code_no_pre : ¬ notesMarker <+: codeMarker ∧ ¬ codeMarker <+: notesMarker := by
  decide

lemma lastMatch_eq_none_iff {p l : Str} :
    lastMatch p l = none ↔ ∀ i, ¬ p <+: l.drop i := by
  constructor
  · exact lastMatch_none
  · intro hall
    cases h : lastMatch p l with
    | none => rfl
    | some i => exact absurd (lastMatch_some_occurs h) (hall i)

lemma detect_unfold (text : Str) :
    detectCurrentSection text =
      (if goLastIndex (goToLower text) codeMarker > goLastIndex (goToLower text) notesMarker ∧
          goLastIndex (goToLower text) codeMarker > goLastIndex (goToLower text) explMarker
        then "code"
        else if goLastIndex (goToLower text) notesMarker > goLastIndex (goToLower text) explMarker ∧
            goLastIndex (goToLower text) notesMarker > goLastIndex (goToLower text) codeMarker
          then "notes"
          else if goLastIndex (goToLower text) explMarker ≥ 0 then "explanation" else "") :=
  rfl

lemma detect_code_iff (text : Str) :
    detectCurrentSection text = "code" ↔
      ∃ i, codeMarker <+: (goToLower text).drop i ∧
        (∀ j, notesMarker <+: (goToLower text).drop j → j < i) ∧
        (∀ j, explMarker <+: (goToLower text).drop j → j < i) := by
  rw [detect_unfold]
  by_cases h1 : goLastIndex (goToLower text) codeMarker > goLastIndex (goToLower text) notesMarker ∧
      goLastIndex (goToLower text) codeMarker > goLastIndex (goToLower text) explMarker
  · rw [if_pos h1]
    exact iff_of_true rfl
      ((dominates_iff codeMarker_ne_nil notesMarker_ne_nil explMarker_ne_nil).mp ⟨h1.1, h1.2⟩)
  · rw [if_neg h1]
    constructor
    · intro hL
      exfalso
      split_ifs at hL <;> simp at hL
    · intro hR
      exact absurd
        ((dominates_iff codeMarker_ne_nil notesMarker_ne_nil explMarker_ne_nil).mpr hR) h1

lemma detect_notes_iff (text : Str) :
    detectCurrentSection text = "notes" ↔
      ∃ i, notesMarker <+: (goToLower text).drop i ∧
        (∀ j, explMarker <+: (goToLower text).drop j → j < i) ∧
        (∀ j, codeMarker <+: (goToLower text).drop j → j < i) := by
  rw [detect_unfold]
  by_cases h1 : goLastIndex (goToLower text) codeMarker > goLastIndex (goToLower text) notesMarker ∧
      goLastIndex (goToLower text) codeMarker > goLastIndex (goToLower text) explMarker
  · rw [if_pos h1]
    constructor
    · intro hL
      exact absurd hL (by simp)
    · intro hR
      have := (dominates_iff notesMarker_ne_nil explMarker_ne_nil codeMarker_ne_nil).mpr hR
      omega
  · rw [if_neg h1]
    by_cases h2 : goLastIndex (goToLower text) notesMarker > goLastIndex (goToLower text) explMarker ∧
        goLastIndex (goToLower text) notesMarker > goLastIndex (goToLower text) codeMarker
    · rw [if_pos h2]
      exact iff_of_true rfl
        ((dominates_iff notesMarker_ne_nil explMarker_ne_nil codeMarker_ne_nil).mp ⟨h2.1, h2.2⟩)
    · rw [if_neg h2]
      constructor
      · intro hL
        exfalso
        split_ifs at hL <;> simp at hL
      · intro hR
        exact absurd
          ((dominates_iff notesMarker_ne_nil explMarker_ne_nil codeMarker_ne_nil).mpr hR) h2

lemma detect_expl_iff (text : Str) :
    detectCurrentSection text = "explanation" ↔
      ∃ i, explMarker <+: (goToLower text).drop i ∧
        (∀ j, notesMarker <+: (goToLower text).drop j → j < i) ∧
        (∀ j, codeMarker <+: (goToLower text).drop j → j < i) := by
  rw [detect_unfold]
  by_cases h1 : goLastIndex (goToLower text) codeMarker > goLastIndex (goToLower text) notesMarker ∧
      goLastIndex (goToLower text) codeMarker > goLastIndex (goToLower text) explMarker
  · rw [if_pos h1]
    constructor
    · intro hL
      exact absurd hL (by simp)
    · intro hR
      have := (dominates_iff explMarker_ne_nil notesMarker_ne_nil codeMarker_ne_nil).mpr hR
      omega
  · rw [if_neg h1]
    by_cases h2 : goLastIndex (goToLower text) notesMarker > goLastIndex (goToLower text) explMarker ∧
        goLastIndex (goToLower text) notesMarker > goLastIndex (goToLower text) codeMarker
    · rw [if_pos h2]
      constructor
      · intro hL
        exact absurd hL (by simp)
      · intro hR
        have := (dominates_iff explMarker_ne_nil notesMarker_ne_nil codeMarker_ne_nil).mpr hR
        omega
    · rw [if_neg h2]
      by_cases h3 : goLastIndex (goToLower text) explMarker ≥ 0
      · rw [if_pos h3]
        refine iff_of_true rfl ?_
        have hab : goLastIndex (goToLower text) notesMarker <
            goLastIndex (goToLower text) explMarker := by
          by_contra hq
          push_neg at hq
          rcases eq_or_lt_of_le hq with heq | hlt
          · have := goLastIndex_eq_imp expl_notes_no_pre.1 expl_notes_no_pre.2
              (goToLower text) heq
            omega
          · have hbc : goLastIndex (goToLower text) notesMarker ≤
                goLastIndex (goToLower text) codeMarker := by
              by_contra hq2
              push_neg at hq2
              exact h2 ⟨by omega, by omega⟩
            rcases eq_or_lt_of_le hbc with heq2 | hlt2
            · have := goLastIndex_eq_imp notes_code_no_pre.1 notes_code_no_pre.2
                (goToLower text) heq2
              omega
            · exact h1 ⟨by omega, by omega⟩
        have hac : goLastIndex (goToLower text) codeMarker <
            goLastIndex (goToLower text) explMarker := by
          by_contra hq
          push_neg at hq
          rcases eq_or_lt_of_le hq with heq | hlt
          · have := goLastIndex_eq_imp expl_code_no_pre.1 expl_code_no_pre.2
              (goToLower text) heq
            omega
          · exact h1 ⟨by omega, by omega⟩
        exact (dominates_iff explMarker_ne_nil notesMarker_ne_nil codeMarker_ne_nil).mp
          ⟨hab, hac⟩
      · rw [if_neg h3]
        constructor
        · intro hL
          exact absurd hL (by simp)
        · rintro ⟨i, hocc, -, -⟩
          rcases occurs_lastMatch explMarker_ne_nil hocc with ⟨i₀, hi₀, -, -⟩
          rw [goLastIndex_eq_coe hi₀] at h3
          exact (h3 (Int.natCast_nonneg i₀)).elim

lemma detect_empty_iff (text : Str) :
    detectCurrentSection text = "" ↔
      (∀ i, ¬ explMarker <+: (goToLower text).drop i) ∧
      (∀ i, ¬ notesMarker <+: (goToLower text).drop i) ∧
      (∀ i, ¬ codeMarker <+: (goToLower text).drop i) := by
  rw [detect_unfold]
  by_cases h1 : goLastIndex (goToLower text) codeMarker > goLastIndex (goToLower text) notesMarker ∧
      goLastIndex (goToLower text) codeMarker > goLastIndex (goToLower text) explMarker
  · rw [if_pos h1]
    constructor
    · intro hL
      exact absurd hL (by simp)
    · rintro ⟨-, -, hcode⟩
      have := goLastIndex_eq_neg (lastMatch_eq_none_iff.mpr hcode)
      have hge := goLastIndex_neg_le (goToLower text) notesMarker
      omega
  · rw [if_neg h1]
    by_cases h2 : goLastIndex (goToLower text) notesMarker > goLastIndex (goToLower text) explMarker ∧
        goLastIndex (goToLower text) notesMarker > goLastIndex (goToLower text) codeMarker
    · rw [if_pos h2]
      constructor
      · intro hL
        exact absurd hL (by simp)
      · rintro ⟨-, hnotes, -⟩
        have := goLastIndex_eq_neg (lastMatch_eq_none_iff.mpr hnotes)
        have hge := goLastIndex_neg_le (goToLower text) explMarker
        omega
    · rw [if_neg h2]
      by_cases h3 : goLastIndex (goToLower text) explMarker ≥ 0
      · rw [if_pos h3]
        constructor
        · intro hL
          exact absurd hL (by simp)
        · rintro ⟨hexpl, -, -⟩
          have := goLastIndex_eq_neg (lastMatch_eq_none_iff.mpr hexpl)
          omega
      · rw [if_neg h3]
        refine iff_of_true rfl ?_
        have ha : goLastIndex (goToLower text) explMarker = -1 := by
          have := goLastIndex_neg_le (goToLower text) explMarker
          omega
        have hexpl : ∀ i, ¬ explMarker <+: (goToLower text).drop i := by
          intro i hocc
          rcases occurs_lastMatch explMarker_ne_nil hocc with ⟨i₀, hi₀, -, -⟩
          rw [goLastIndex_eq_coe hi₀] at ha
          omega
        have hnotes : ∀ i, ¬ notesMarker <+: (goToLower text).drop i := by
          intro i hocc
          rcases occurs_lastMatch notesMarker_ne_nil hocc with ⟨i₀, hi₀, -, -⟩
          have hb : goLastIndex (goToLower text) notesMarker = (i₀ : Int) :=
            goLastIndex_eq_coe hi₀
          have hb0 : (0 : Int) ≤ (i₀ : Int) := Int.natCast_nonneg i₀
          have hbc : goLastIndex (goToLower text) notesMarker ≤
              goLastIndex (goToLower text) codeMarker := by
            by_contra hq
            push_neg at hq
            exact h2 ⟨by omega, by omega⟩
          rcases eq_or_lt_of_le hbc with heq | hlt
          · have := goLastIndex_eq_imp notes_code_no_pre.1 notes_code_no_pre.2
              (goToLower text) heq
            omega
          · exact h1 ⟨by omega, by omega⟩
        have hcode : ∀ i, ¬ codeMarker <+: (goToLower text).drop i := by
          intro i hocc
          rcases occurs_lastMatch codeMarker_ne_nil hocc with ⟨i₀, hi₀, -, -⟩
          have hc : goLastIndex (goToLower text) codeMarker = (i₀ : Int) :=
            goLastIndex_eq_coe hi₀
          have hc0 : (0 : Int) ≤ (i₀ : Int) := Int.natCast_nonneg i₀
          have hcb : goLastIndex (goToLower text) codeMarker ≤
              goLastIndex (goToLower text) notesMarker := by
            by_contra hq
            push_neg at hq
            exact h1 ⟨by omega, by omega⟩
          have hbnone := goLastIndex_eq_neg (lastMatch_eq_none_iff.mpr hnotes)
          omega
        exact ⟨hexpl, hnotes, hcode⟩

/-- C5: Active-section selection: for every accumulated text, the Section
Extractor's active section is the one of the three known markers whose
rightmost occurrence in the lower-cased text has the greatest string
offset (every occurrence of any other marker lies strictly to its left),
and when no marker occurs in the text it reports no active section. -/
theorem active_section_rightmost (text : Str) :
    (detectCurrentSection text = "" ↔
      ∀ sec ∈ sectionNames, ∀ i, ¬ markerOf sec <+: (goToLower text).drop i) ∧
    (∀ sec ∈ sectionNames,
      (detectCurrentSection text = sec ↔
        ∃ i, markerOf sec <+: (goToLower text).drop i ∧
          ∀ sec' ∈ sectionNames, sec' ≠ sec →
            ∀ j, markerOf sec' <+: (goToLower text).drop j → j < i)) := by
  constructor
  · rw [detect_empty_iff]
    constructor
    · rintro ⟨he, hn, hc⟩ sec hsec i
      rcases (by simpa [sectionNames] using hsec :
          sec = "explanation" ∨ sec = "notes" ∨ sec = "code") with rfl | rfl | rfl
      · simpa [markerOf] using he i
      · simpa [markerOf] using hn i
      · simpa [markerOf] using hc i
    · intro hall
      refine ⟨fun i => ?_, fun i => ?_, fun i => ?_⟩
      · simpa [markerOf] using hall "explanation" (by simp [sectionNames]) i
      · simpa [markerOf] using hall "notes" (by simp [sectionNames]) i
      · simpa [markerOf] using hall "code" (by simp [sectionNames]) i
  · intro sec hsec
    rcases (by simpa [sectionNames] using hsec :
        sec = "explanation" ∨ sec = "notes" ∨ sec = "code") with rfl | rfl | rfl
    · rw [detect_expl_iff]
      constructor
      · rintro ⟨i, hocc, hn, hc⟩
        refine ⟨i, by simpa [markerOf] using hocc, ?_⟩
        intro sec' hsec' hne j hj
        rcases (by simpa [sectionNames] using hsec' :
            sec' = "explanation" ∨ sec' = "notes" ∨ sec' = "code") with rfl | rfl | rfl
        · exact absurd rfl hne
        · exact hn j (by simpa [markerOf] using hj)
        · exact hc j (by simpa [markerOf] using hj)
      · rintro ⟨i, hocc, hall⟩
        refine ⟨i, by simpa [markerOf] using hocc, fun j hj => ?_, fun j hj => ?_⟩
        · exact hall "notes" (by simp [sectionNames]) (by decide) j
            (by simpa [markerOf] using hj)
        · exact hall "code" (by simp [sectionNames]) (by decide) j
            (by simpa [markerOf] using hj)
    · rw [detect_notes_iff]
      constructor
      · rintro ⟨i, hocc, he, hc⟩
        refine ⟨i, by simpa [markerOf] using hocc, ?_⟩
        intro sec' hsec' hne j hj
        rcases (by simpa [sectionNames] using hsec' :
            sec' = "explanation" ∨ sec' = "notes" ∨ sec' = "code") with rfl | rfl | rfl
        · exact he j (by simpa [markerOf] using hj)
        · exact absurd rfl hne
        · exact hc j (by simpa [markerOf] using hj)
      · rintro ⟨i, hocc, hall⟩
        refine ⟨i, by simpa [markerOf] using hocc, fun j hj => ?_, fun j hj => ?_⟩
        · exact hall "explanation" (by simp [sectionNames]) (by decide) j
            (by simpa [markerOf] using hj)
        · exact hall "code" (by simp [sectionNames]) (by decide) j
            (by simpa [markerOf] using hj)
    · rw [detect_code_iff]
      constructor
      · rintro ⟨i, hocc, hn, he⟩
        refine ⟨i, by simpa [markerOf] using hocc, ?_⟩
        intro sec' hsec' hne j hj
        rcases (by simpa [sectionNames] using hsec' :
            sec' = "explanation" ∨ sec' = "notes" ∨ sec' = "code") with rfl | rfl | rfl
        · exact he j (by simpa [markerOf] using hj)
        · exact hn j (by simpa [markerOf] using hj)
        · exact absurd rfl hne
      · rintro ⟨i, hocc, hall⟩
        refine ⟨i, by simpa [markerOf] using hocc, fun j hj => ?_, fun j hj => ?_⟩
        · exact hall "notes" (by simp [sectionNames]) (by decide) j
            (by simpa [markerOf] using hj)
        · exact hall "explanation" (by simp [sectionNames]) (by decide) j
            (by simpa [markerOf] using hj)

/-- Witness for C5: on a text containing the explanation marker followed
by the notes marker, the theorem instantiates to the active section
`notes`, yielding an occurrence of the notes marker to the right of every
other marker occurrence. -/
theorem active_section_rightmost_witness :
    ∃ i, markerOf "notes" <+:
        (goToLower "=== explanation ===\nA\n=== translation notes ===".toList).drop i ∧
      ∀ sec' ∈ sectionNames, sec' ≠ "notes" →
        ∀ j, markerOf sec' <+:
            (goToLower "=== explanation ===\nA\n=== translation notes ===".toList).drop j →
          j < i :=
  ((active_section_rightmost "=== explanation ===\nA\n=== translation notes ===".toList).2
    "notes" (by simp [sectionNames])).mp (by decide)

lemma firstMatch_of_minimal {p l : Str} {i : Nat} (hocc : p <+: l.drop i)
    (hmin : ∀ i', i' < i → ¬ p <+: l.drop i') : firstMatch p l = some i := by
  rcases occurs_firstMatch hocc with ⟨i₀, h₀, hle, hocc₀⟩
  rcases Nat.lt_or_ge i₀ i with hlt | hge
  · exact absurd hocc₀ (hmin i₀ hlt)
  · have : i₀ = i := le_antisymm hle hge
    rwa [this] at h₀

lemma occurrence_le_length {p l : Str} {i : Nat} (hp : p ≠ []) (hocc : p <+: l.drop i) :
    i + p.length ≤ l.length := by
  have hlen := List.IsPrefix.length_le hocc
  rw [List.length_drop] at hlen
  have hpos : 1 ≤ p.length := by
    cases p with
    | nil => exact absurd rfl hp
    | cons a as => simp
  omega

lemma goToLower_length (s : Str) : (goToLower s).length = s.length := by
  simp [goToLower]

lemma goIndex_of_some {s p : Str} {i : Nat} (h : firstMatch p s = some i) :
    goIndex s p = (i : Int) := by simp [goIndex, h]

lemma goIndex_of_none {s p : Str} (h : firstMatch p s = none) :
    goIndex s p = -1 := by simp [goIndex, h]

lemma extractBetween_of_none {text m next : Str}
    (h : firstMatch m (goToLower text) = none) :
    extractBetween text m next = [] := by
  simp [extractBetween, goIndex_of_none h]

lemma extractBetween_of_found {text m next : Str} {i : Nat} (hm : m ≠ [])
    (h : firstMatch m (goToLower text) = some i) :
    extractBetween text m next =
      match firstMatch next ((goToLower text).drop (i + m.length)) with
      | none => goTrimSpace (text.drop (i + m.length))
      | some j => goTrimSpace ((text.drop (i + m.length)).take j) := by
  have hfit : i + m.length ≤ text.length := by
    have := occurrence_le_length hm (firstMatch_some_occurs h)
    rwa [goToLower_length] at this
  have hne : ¬ ((i : Int) = -1) := by omega
  have htn : ((i : Int) + (m.length : Int)).toNat = i + m.length := by omega
  simp only [extractBetween, goIndex_of_some h, htn, if_neg hne]
  cases hn : firstMatch next ((goToLower text).drop (i + m.length)) with
  | none =>
    rw [goIndex_of_none hn, if_pos rfl]
    have hlen : ((text.length : Int) - ((i + m.length : Nat) : Int)).toNat =
        text.length - (i + m.length) := by omega
    rw [hlen]
    have htake : (text.drop (i + m.length)).take (text.length - (i + m.length)) =
        text.drop (i + m.length) := by
      apply List.take_of_length_le
      rw [List.length_drop]
    rw [htake]
  | some j =>
    rw [goIndex_of_some hn]
    have hjne : ¬ ((j : Int) = -1) := by omega
    rw [if_neg hjne]
    have : ((j : Int)).toNat = j := by omega
    rw [this]

/-- Occurrence-level characterization of `extractBetween`: when the
section marker `m` does not occur the result is empty; when its first
occurrence is at `i`, the result is the original text from the end of that
occurrence up to the first following occurrence of `next` (or to
end-of-text), whitespace-trimmed. -/
lemma extractBetween_spec {text m next : Str} (hm : m ≠ []) :
    ((∀ i, ¬ m <+: (goToLower text).drop i) → extractBetween text m next = []) ∧
    (∀ i, m <+: (goToLower text).drop i →
      (∀ i', i' < i → ¬ m <+: (goToLower text).drop i') →
      ((∀ j, ¬ next <+: (goToLower text).drop (i + m.length + j)) →
        extractBetween text m next = goTrimSpace (text.drop (i + m.length))) ∧
      (∀ j, next <+: (goToLower text).drop (i + m.length + j) →
        (∀ j', j' < j → ¬ next <+: (goToLower text).drop (i + m.length + j')) →
        extractBetween text m next =
          goTrimSpace ((text.drop (i + m.length)).take j))) := by
  constructor
  · intro hall
    apply extractBetween_of_none
    cases hfm : firstMatch m (goToLower text) with
    | none => rfl
    | some i => exact absurd (firstMatch_some_occurs hfm) (hall i)
  · intro i hocc hmin
    have hfm := firstMatch_of_minimal hocc hmin
    constructor
    · intro hnone
      rw [extractBetween_of_found hm hfm]
      have : firstMatch next ((goToLower text).drop (i + m.length)) = none := by
        cases hn : firstMatch next ((goToLower text).drop (i + m.length)) with
        | none => rfl
        | some j =>
          have := firstMatch_some_occurs hn
          rw [List.drop_drop] at this
          exact absurd (by simpa [Nat.add_comm] using this) (hnone j)
      rw [this]
    · intro j hjocc hjmin
      rw [extractBetween_of_found hm hfm]
      have : firstMatch next ((goToLower text).drop (i + m.length)) = some j := by
        apply firstMatch_of_minimal
        · rw [List.drop_drop]
          simpa [Nat.add_comm] using hjocc
        · intro j' hj' hc
          rw [List.drop_drop] at hc
          exact hjmin j' hj' (by simpa [Nat.add_comm] using hc)
      rw [this]

/-- Occurrence-level characterization of the `code` branch of
`extractSectionContent`: everything after the first occurrence of the
code marker, trimmed, passed through the fence-strip chain and trimmed
again. -/
lemma extract_code_spec (text : Str) :
    ((∀ i, ¬ codeMarker <+: (goToLower text).drop i) →
      extractSectionContent text "code" = []) ∧
    (∀ i, codeMarker <+: (goToLower text).drop i →
      (∀ i', i' < i → ¬ codeMarker <+: (goToLower text).drop i') →
      extractSectionContent text "code" =
        goTrimSpace (stripCodeFences (goTrimSpace (text.drop (i + codeMarker.length))))) := by
  constructor
  · intro hall
    have hfm : firstMatch codeMarker (goToLower text) = none := by
      cases hfm : firstMatch codeMarker (goToLower text) with
      | none => rfl
      | some i => exact absurd (firstMatch_some_occurs hfm) (hall i)
    simp [extractSectionContent, goIndex_of_none hfm]
  · intro i hocc hmin
    have hfm := firstMatch_of_minimal hocc hmin
    have hne : ¬ ((i : Int) = -1) := by omega
    have htn : ((i : Int) + (codeMarker.length : Int)).toNat = i + codeMarker.length := by
      omega
    simp [extractSectionContent, goIndex_of_some hfm, htn, if_neg hne]

/-- C6 (amended): Section content extraction: for every accumulated text,
the content of the explanation and notes sections is the text between the
end of the first occurrence of the section's marker in the lower-cased
text and the start of the first subsequent occurrence of the next marker
in sequence order (explanation→notes, notes→code), or to end-of-text when
no subsequent occurrence exists, trimmed of leading/trailing whitespace;
an absent marker yields empty content.  For the code section only, the
trimmed content additionally passes through the source's fence chain
`stripCodeFences` — a leading fence tagged with one of the twelve
recognized language names is stripped whole, a bare leading fence is
stripped, but a fence tagged with any other language name loses only its
backticks (the tag text remains in the content), one trailing fence is
stripped — and the result is trimmed again. -/
theorem extract_section_between (text : Str) :
    (((∀ i, ¬ explMarker <+: (goToLower text).drop i) →
        extractSectionContent text "explanation" = []) ∧
      (∀ i, explMarker <+: (goToLower text).drop i →
        (∀ i', i' < i → ¬ explMarker <+: (goToLower text).drop i') →
        ((∀ j, ¬ notesMarker <+: (goToLower text).drop (i + explMarker.length + j)) →
          extractSectionContent text "explanation" =
            goTrimSpace (text.drop (i + explMarker.length))) ∧
        (∀ j, notesMarker <+: (goToLower text).drop (i + explMarker.length + j) →
          (∀ j', j' < j →
            ¬ notesMarker <+: (goToLower text).drop (i + explMarker.length + j')) →
          extractSectionContent text "explanation" =
            goTrimSpace ((text.drop (i + explMarker.length)).take j)))) ∧
    (((∀ i, ¬ notesMarker <+: (goToLower text).drop i) →
        extractSectionContent text "notes" = []) ∧
      (∀ i, notesMarker <+: (goToLower text).drop i →
        (∀ i', i' < i → ¬ notesMarker <+: (goToLower text).drop i') →
        ((∀ j, ¬ codeMarker <+: (goToLower text).drop (i + notesMarker.length + j)) →
          extractSectionContent text "notes" =
            goTrimSpace (text.drop (i + notesMarker.length))) ∧
        (∀ j, codeMarker <+: (goToLower text).drop (i + notesMarker.length + j) →
          (∀ j', j' < j →
            ¬ codeMarker <+: (goToLower text).drop (i + notesMarker.length + j')) →
          extractSectionContent text "notes" =
            goTrimSpace ((text.drop (i + notesMarker.length)).take j)))) ∧
    (((∀ i, ¬ codeMarker <+: (goToLower text).drop i) →
        extractSectionContent text "code" = []) ∧
      (∀ i, codeMarker <+: (goToLower text).drop i →
        (∀ i', i' < i → ¬ codeMarker <+: (goToLower text).drop i') →
        extractSectionContent text "code" =
          goTrimSpace (stripCodeFences (goTrimSpace (text.drop (i + codeMarker.length)))))) := by
  refine ⟨?_, ?_, extract_code_spec text⟩
  · have hrfl : extractSectionContent text "explanation" =
        extractBetween text explMarker notesMarker := rfl
    rw [hrfl]
    exact extractBetween_spec explMarker_ne_nil
  · have hrfl : extractSectionContent text "notes" =
        extractBetween text notesMarker codeMarker := rfl
    rw [hrfl]
    exact extractBetween_spec notesMarker_ne_nil

/-- Witness for C6: on a text whose explanation marker sits at offset 0
and whose notes marker starts three characters after the explanation
marker ends, the theorem computes the explanation content as the trimmed
slice between them. -/
theorem extract_section_between_witness :
    extractSectionContent "=== explanation ===\nA\n=== translation notes ===".toList
        "explanation" =
      goTrimSpace (("=== explanation ===\nA\n=== translation notes ===".toList.drop
        (0 + explMarker.length)).take 3) :=
  ((extract_section_between
      "=== explanation ===\nA\n=== translation notes ===".toList).1.2 0
    (by decide) (fun i' h => absurd h (Nat.not_lt_zero i'))).2 3 (by decide) (by decide)

/-- Counterexample for C6: the claim promises that a leading code fence
tagged with a language name is stripped from the code section, but for
the unrecognized tag `haskell` the code's `TrimPrefix` chain removes only
the backticks and leaves the tag text in the content, so the extracted
content differs from the claimed one. -/
theorem extract_fence_counterexample :
    extractSectionContent c6Input "code" = "haskell\nx".toList ∧
    claimExtractCode c6Input = "x".toList ∧
    extractSectionContent c6Input "code" ≠ claimExtractCode c6Input := by decide

/-! ### Emission discipline of the orchestrator -/

lemma filter_length_le_one {α β : Type} [DecidableEq β] (g : α → β) (b : β) :
    ∀ l : List α, (l.map g).Nodup → (l.filter fun x => decide (g x = b)).length ≤ 1 := by
  intro l
  induction l with
  | nil => simp
  | cons x rest ih =>
    intro hnd
    simp only [List.map_cons, List.nodup_cons] at hnd
    by_cases hx : g x = b
    · rw [List.filter_cons_of_pos (by simp [hx])]
      have hnil : rest.filter (fun y => decide (g y = b)) = [] := by
        rw [List.filter_eq_nil_iff]
        intro y hy
        simp only [decide_eq_true_eq]
        intro hgy
        exact hnd.1 (List.mem_map.mpr ⟨y, hy, (hgy.trans hx.symm).symm ▸ rfl⟩)
      simp [hnil]
    · rw [List.filter_cons_of_neg (by simp [hx])]
      exact ih hnd.2

lemma sendFinalSections_types_sublist (t : Str) :
    ((sendFinalSections t).map (fun c => c.type)).Sublist sectionNames := by
  unfold sendFinalSections sectionNames
  generalize (["explanation", "notes", "code"] : List String) = l
  induction l with
  | nil => simp
  | cons sec rest ih =>
    rw [List.filterMap_cons]
    by_cases hc : extractSectionContent t sec ≠ []
    · simp only [if_pos hc, List.map_cons]
      exact List.Sublist.cons₂ sec ih
    · simp only [if_neg hc]
      exact List.Sublist.cons sec ih

lemma sendFinalSections_per_section (t : Str) (sec : String) :
    ((sendFinalSections t).filter fun c => decide (c.type = sec)).length ≤ 1 := by
  apply filter_length_le_one
  exact ((sendFinalSections_types_sublist t).nodup (by decide))

lemma sendFinalSections_mem {t : Str} {c : StreamChunk} (h : c ∈ sendFinalSections t) :
    c.type ∈ sectionNames ∧ c.delta = false ∧
      c.content = extractSectionContent t c.type ∧ c.content ≠ [] := by
  unfold sendFinalSections at h
  rcases List.mem_filterMap.mp h with ⟨sec, hsec, hval⟩
  by_cases hc : extractSectionContent t sec ≠ []
  · rw [if_pos hc] at hval
    cases hval
    exact ⟨hsec, rfl, rfl, hc⟩
  · rw [if_neg hc] at hval
    cases hval

/-- Exactly-one-final-per-populated-section form of the replay: filtering
the end-of-stream replay by a section name yields precisely the one final
chunk carrying that section's non-empty content, and nothing for an
unpopulated (or unknown) section. -/
lemma sendFinalSections_filter_eq (t : Str) (sec : String) :
    ∀ l : List String, l.Nodup →
      ((l.filterMap fun s =>
          if extractSectionContent t s ≠ [] then
            some (StreamChunk.mk s (extractSectionContent t s) false)
          else none).filter fun c => decide (c.type = sec)) =
        if sec ∈ l ∧ extractSectionContent t sec ≠ [] then
          [StreamChunk.mk sec (extractSectionContent t sec) false]
        else [] := by
  intro l
  induction l with
  | nil =>
    intro _
    simp
  | cons s rest ih =>
    intro hnd
    simp only [List.nodup_cons] at hnd
    by_cases hs : extractSectionContent t s ≠ []
    · have hstep : ((s :: rest).filterMap fun x =>
          if extractSectionContent t x ≠ [] then
            some (StreamChunk.mk x (extractSectionContent t x) false)
          else none) =
          StreamChunk.mk s (extractSectionContent t s) false ::
            (rest.filterMap fun x =>
              if extractSectionContent t x ≠ [] then
                some (StreamChunk.mk x (extractSectionContent t x) false)
              else none) := by
        rw [List.filterMap_cons, if_pos hs]
      rw [hstep]
      by_cases hsec : s = sec
      · subst hsec
        rw [List.filter_cons_of_pos (by simp)]
        rw [ih hnd.2, if_neg (fun hk => hnd.1 hk.1)]
        rw [if_pos ⟨List.mem_cons_self s rest, hs⟩]
      · rw [List.filter_cons_of_neg (by simp [hsec])]
        rw [ih hnd.2]
        by_cases hrest : sec ∈ rest ∧ extractSectionContent t sec ≠ []
        · rw [if_pos hrest, if_pos ⟨List.mem_cons_of_mem s hrest.1, hrest.2⟩]
        · rw [if_neg hrest, if_neg (fun hk =>
            hrest ⟨(List.mem_cons.mp hk.1).resolve_left (fun h => hsec h.symm), hk.2⟩)]
    · have hstep : ((s :: rest).filterMap fun x =>
          if extractSectionContent t x ≠ [] then
            some (StreamChunk.mk x (extractSectionContent t x) false)
          else none) =
          (rest.filterMap fun x =>
            if extractSectionContent t x ≠ [] then
              some (StreamChunk.mk x (extractSectionContent t x) false)
            else none) := by
        rw [List.filterMap_cons, if_neg hs]
      rw [hstep, ih hnd.2]
      by_cases hsec : s = sec
      · subst hsec
        rw [if_neg (fun hk => hs hk.2), if_neg (fun hk => hs hk.2)]
      · by_cases hrest : sec ∈ rest ∧ extractSectionContent t sec ≠ []
        · rw [if_pos hrest, if_pos ⟨List.mem_cons_of_mem s hrest.1, hrest.2⟩]
        · rw [if_neg hrest, if_neg (fun hk =>
            hrest ⟨(List.mem_cons.mp hk.1).resolve_left (fun h => hsec h.symm), hk.2⟩)]

/-- C1 (amended): Delta/final emission discipline: one step of the
streaming callback emits exactly a final chunk for the previous section
when the active section changed away from a non-empty previous section
whose freshly extracted content is non-empty (and no final otherwise),
followed by exactly a delta chunk for the active section when its
extracted content is non-empty and differs from the base section buffer
(and no delta otherwise) — the base buffer being the concatenation of the
deltas emitted since the section last became active, not the last emitted
content — and the step appends the emitted delta's content to that buffer
rather than recording it as a replacement.  The end-of-stream replay
emits exactly one final chunk per populated section and none for an
unpopulated section. -/
theorem orch_delta_final_discipline (st : OrchState) (f : Str) (t : Str) (sec : String) :
    (orchStep st f).2 =
      (if detectCurrentSection (st.fullResponse ++ f) ≠ st.currentSection ∧
          st.currentSection ≠ "" then
        (if extractSectionContent (st.fullResponse ++ f) st.currentSection ≠ [] then
          [StreamChunk.mk st.currentSection
            (extractSectionContent (st.fullResponse ++ f) st.currentSection) false]
        else [])
      else []) ++
      (if detectCurrentSection (st.fullResponse ++ f) ≠ "" then
        (if extractSectionContent (st.fullResponse ++ f)
              (detectCurrentSection (st.fullResponse ++ f)) ≠ [] ∧
            extractSectionContent (st.fullResponse ++ f)
              (detectCurrentSection (st.fullResponse ++ f)) ≠ orchBaseBuffer st f then
          [StreamChunk.mk (detectCurrentSection (st.fullResponse ++ f))
            (extractSectionContent (st.fullResponse ++ f)
              (detectCurrentSection (st.fullResponse ++ f))) true]
        else [])
      else []) ∧
    (orchStep st f).1.sectionBuffer =
      (if detectCurrentSection (st.fullResponse ++ f) ≠ "" ∧
          extractSectionContent (st.fullResponse ++ f)
            (detectCurrentSection (st.fullResponse ++ f)) ≠ [] ∧
          extractSectionContent (st.fullResponse ++ f)
            (detectCurrentSection (st.fullResponse ++ f)) ≠ orchBaseBuffer st f then
        orchBaseBuffer st f ++
          extractSectionContent (st.fullResponse ++ f)
            (detectCurrentSection (st.fullResponse ++ f))
      else orchBaseBuffer st f) ∧
    ((sendFinalSections t).filter fun c => decide (c.type = sec)) =
      (if sec ∈ sectionNames ∧ extractSectionContent t sec ≠ [] then
        [StreamChunk.mk sec (extractSectionContent t sec) false]
      else []) := by
  refine ⟨?_, ?_, ?_⟩
  · simp only [orchStep, orchBaseBuffer]
    split_ifs <;> simp_all
  · simp only [orchStep, orchBaseBuffer]
    split_ifs <;> simp_all
  · have hrfl : sendFinalSections t =
        (["explanation", "notes", "code"] : List String).filterMap fun s =>
          if extractSectionContent t s ≠ [] then
            some (StreamChunk.mk s (extractSectionContent t s) false)
          else none := rfl
    rw [hrfl, sendFinalSections_filter_eq t sec _ (by decide)]
    rfl

/-- Witness for C1: the theorem instantiated on a concrete emitting step
and a concrete populated replay: the first fragment makes the step emit
exactly the explanation delta, and the replay emits exactly the one final
explanation chunk. -/
theorem orch_delta_final_discipline_witness :
    (orchStep initOrchState c2Fragment).2 =
      [StreamChunk.mk "explanation" "A".toList true] ∧
    ((sendFinalSections c2Fragment).filter fun c => decide (c.type = "explanation")) =
      [StreamChunk.mk "explanation" "A".toList false] := by
  constructor
  · rw [(orch_delta_final_discipline initOrchState c2Fragment c2Fragment "explanation").1]
    decide
  · rw [(orch_delta_final_discipline initOrchState c2Fragment c2Fragment
      "explanation").2.2]
    decide

/-- Counterexample for C1: in the two-fragment run `c1Fragments` the final
(non-delta) chunk for the explanation section is emitted twice within one
job — once when the active section changes from explanation to notes, and
once more by the end-of-stream replay `sendFinalSections` — refuting "the
final chunk for any given section is emitted at most once per job". -/
theorem orch_final_twice_counterexample :
    ((translateChunks c1Fragments none).1.filter fun c =>
      decide (c.type = "explanation" ∧ c.delta = false)).length = 2 := by decide

/-! ### Shape of the producer's sink messages -/

lemma jsonMarshalChunk_head (c : StreamChunk) : (jsonMarshalChunk c).head? = some '{' := rfl

lemma errorMsgFor_head (e : Str) : (errorMsgFor e).head? = some 'E' := rfl

lemma jsonMarshalChunk_ne_done (c : StreamChunk) : jsonMarshalChunk c ≠ doneMsg := by
  intro h
  have h1 := jsonMarshalChunk_head c
  rw [h] at h1
  exact absurd h1 (by decide)

lemma errorMsgFor_ne_done (e : Str) : errorMsgFor e ≠ doneMsg := by
  intro h
  have h1 := errorMsgFor_head e
  rw [h] at h1
  exact absurd h1 (by decide)

/-- The character at offset 10 of a marshalled chunk is the second
character of its `type` field (offsets 0–8 hold the constant preamble,
offset 9 the type's first character). -/
lemma jsonMarshalChunk_type_char {c : StreamChunk} {a b : Char} {r : List Char}
    (h : c.type.toList = a :: b :: r) : (jsonMarshalChunk c).get? 10 = some b := by
  unfold jsonMarshalChunk
  rw [h]
  rfl

/-- A chunk whose kind is one of the three section names never marshals
to the same string as a chunk of kind `error` (their second type
characters differ). -/
lemma marshal_ne_of_types {c c' : StreamChunk} (h : c.type ∈ sectionNames)
    (h' : c'.type = "error") : jsonMarshalChunk c ≠ jsonMarshalChunk c' := by
  intro heq
  have hb' : (jsonMarshalChunk c').get? 10 = some 'r' :=
    jsonMarshalChunk_type_char (by rw [h']; rfl)
  rcases (by simpa [sectionNames] using h :
      c.type = "explanation" ∨ c.type = "notes" ∨ c.type = "code") with ht | ht | ht
  · have hb : (jsonMarshalChunk c).get? 10 = some 'x' :=
      jsonMarshalChunk_type_char (by rw [ht]; rfl)
    rw [heq, hb'] at hb
    exact absurd hb (by decide)
  · have hb : (jsonMarshalChunk c).get? 10 = some 'o' :=
      jsonMarshalChunk_type_char (by rw [ht]; rfl)
    rw [heq, hb'] at hb
    exact absurd hb (by decide)
  · have hb : (jsonMarshalChunk c).get? 10 = some 'o' :=
      jsonMarshalChunk_type_char (by rw [ht]; rfl)
    rw [heq, hb'] at hb
    exact absurd hb (by decide)

lemma detect_cases (text : Str) :
    detectCurrentSection text = "" ∨ detectCurrentSection text ∈ sectionNames := by
  rw [detect_unfold]
  split_ifs <;> simp [sectionNames]

lemma orchStep_types {st : OrchState} (f : Str)
    (hst : st.currentSection = "" ∨ st.currentSection ∈ sectionNames) :
    (∀ c ∈ (orchStep st f).2, c.type ∈ sectionNames) ∧
    ((orchStep st f).1.currentSection = "" ∨
      (orchStep st f).1.currentSection ∈ sectionNames) := by
  have hd := detect_cases (st.fullResponse ++ f)
  constructor
  · intro c hc
    simp only [orchStep] at hc
    split_ifs at hc with h1 h2 h3
    all_goals rcases hst with hst | hst <;> rcases hd with hd | hd <;> simp_all
    all_goals rcases hc with rfl | rfl <;> simp_all
  · simp only [orchStep]
    exact hd

lemma orchRun_types :
    ∀ (fs : List Str) (st : OrchState),
      (st.currentSection = "" ∨ st.currentSection ∈ sectionNames) →
      ∀ c ∈ (orchRun st fs).2, c.type ∈ sectionNames := by
  intro fs
  induction fs with
  | nil =>
    intro st hst c hc
    simp [orchRun] at hc
  | cons f rest ih =>
    intro st hst c hc
    simp only [orchRun] at hc
    rcases List.mem_append.mp hc with hc | hc
    · exact (orchStep_types f hst).1 c hc
    · exact ih (orchStep st f).1 (orchStep_types f hst).2 c hc

/-- C2 (amended): On producer failure the sink receives the plain string
`ERROR: <message>` followed by the terminal sentinel — not a structured
chunk of kind error: no message of the failed run equals the marshalling
of any chunk whose kind is `error` — and the failure DOES suppress the
end-of-stream replay: `sendFinalSections` contributes to the sink only in
the success run. -/
theorem error_path_plain (fragments : List Str) (e : Str) :
    ginSinkMessages fragments (some e) =
      ((orchRun initOrchState fragments).2.map jsonMarshalChunk) ++
        [errorMsgFor e, doneMsg] ∧
    (∀ m ∈ ginSinkMessages fragments (some e), ∀ c : StreamChunk, c.type = "error" →
      m ≠ jsonMarshalChunk c) ∧
    ginSinkMessages fragments none =
      ((orchRun initOrchState fragments).2.map jsonMarshalChunk) ++
        ((sendFinalSections (orchRun initOrchState fragments).1.fullResponse).map
          jsonMarshalChunk) ++ [doneMsg] := by
  have hshape : ginSinkMessages fragments (some e) =
      ((orchRun initOrchState fragments).2.map jsonMarshalChunk) ++
        [errorMsgFor e, doneMsg] := by
    simp [ginSinkMessages, translateChunks]
  refine ⟨hshape, ?_, ?_⟩
  · intro m hm c' hc' heq
    rw [hshape] at hm
    rcases List.mem_append.mp hm with hm | hm
    · rcases List.mem_map.mp hm with ⟨c₀, hc₀, rfl⟩
      have htypes := orchRun_types fragments initOrchState (Or.inl rfl) c₀ hc₀
      exact marshal_ne_of_types htypes hc' heq
    · rcases (by simpa using hm : m = errorMsgFor e ∨ m = doneMsg) with rfl | rfl
      · have h1 := jsonMarshalChunk_head c'
        rw [← heq, errorMsgFor_head] at h1
        exact absurd h1 (by decide)
      · have h1 := jsonMarshalChunk_head c'
        rw [← heq] at h1
        exact absurd h1 (by decide)
  · simp [ginSinkMessages, translateChunks]

/-- Witness for C2: the theorem applied to the failure run on one
explanation fragment: even the terminal sentinel of that run is not a
marshalled error chunk. -/
theorem error_path_plain_witness :
    doneMsg ≠ jsonMarshalChunk (StreamChunk.mk "error" c2Err false) :=
  (error_path_plain [c2Fragment] c2Err).2.1 doneMsg (by decide)
    (StreamChunk.mk "error" c2Err false) rfl

/-- Counterexample for C2: in the failure run on one explanation fragment
no sink message even begins with the error-chunk preamble
`{"type":"error"` (every marshalled error chunk does), and although the
explanation section is populated, its final replay chunk is absent from
the sink — the error is a plain string and the replay did not run. -/
theorem error_chunk_counterexample :
    ((ginSinkMessages [c2Fragment] (some c2Err)).all
      fun m => !("\x7b\"type\":\"error\"".toList.isPrefixOf m)) = true ∧
    extractSectionContent c2Fragment "explanation" ≠ [] ∧
    jsonMarshalChunk
        (StreamChunk.mk "explanation" (extractSectionContent c2Fragment "explanation")
          false) ∉
      ginSinkMessages [c2Fragment] (some c2Err) := by decide

/-! ### Hub state lemmas -/

lemma find?_set (l : List (String × Stream)) (id : String) (s' : Stream)
    (hf : (l.find? fun p => p.1 = id).isSome) :
    ((l.map fun p => if p.1 = id then (p.1, s') else p).find? fun p => p.1 = id) =
      some (id, s') := by
  induction l with
  | nil => simp at hf
  | cons q rest ih =>
    by_cases hq : q.1 = id
    · simp only [List.map_cons, if_pos hq]
      rw [List.find?_cons_of_pos _ (by simp [hq])]
      simp [hq]
    · simp only [List.map_cons, if_neg hq]
      rw [List.find?_cons_of_neg _ (by simp [hq])]
      apply ih
      rwa [List.find?_cons_of_neg _ (by simp [hq])] at hf

lemma setStream_find {h : Hub} {id : String} {s : Stream} (s' : Stream)
    (hf : h.findStream id = some s) : (h.setStream id s').findStream id = some s' := by
  have hsome : (h.chans.find? fun p => p.1 = id).isSome := by
    unfold Hub.findStream at hf
    rcases Option.map_eq_some'.mp hf with ⟨q, hq, -⟩
    simp [hq]
  unfold Hub.findStream Hub.setStream
  rw [find?_set h.chans id s' hsome]
  rfl

lemma find?_append_of_none {α : Type} {l₁ l₂ : List α} {p : α → Bool}
    (h : l₁.find? p = none) : (l₁ ++ l₂).find? p = l₂.find? p := by
  induction l₁ with
  | nil => simp
  | cons a rest ih =>
    have ha : p a = false := by
      by_cases hpa : p a = true
      · rw [List.find?_cons_of_pos _ hpa] at h
        exact absurd h (by simp)
      · simpa using hpa
    rw [List.find?_cons_of_neg _ (by simp [ha])] at h
    rw [List.cons_append, List.find?_cons_of_neg _ (by simp [ha])]
    exact ih h

lemma findStream_none_find? {h : Hub} {id : String}
    (hf : h.findStream id = none) : (h.chans.find? fun p => p.1 = id) = none := by
  unfold Hub.findStream at hf
  exact Option.map_eq_none'.mp hf

lemma create_find_self {h : Hub} {id : String} (hf : h.findStream id = none) :
    (h.create id).findStream id = some freshStream := by
  unfold Hub.create
  rw [hf]
  unfold Hub.findStream
  rw [find?_append_of_none (findStream_none_find? hf)]
  simp

lemma send_found {h : Hub} {id : String} {s : Stream} (m : Str)
    (hf : h.findStream id = some s) :
    h.send id m = (h.setStream id (streamSend s m), none) := by
  unfold Hub.send
  rw [hf]

lemma send_not_found {h : Hub} {id : String} (m : Str)
    (hf : h.findStream id = none) : h.send id m = (h, none) := by
  unfold Hub.send
  rw [hf]

lemma streamSend_eq (s : Stream) (m : Str) :
    streamSend s m =
      ⟨s.clients.map (pushClient m), s.buffer ++ [m],
        if m = doneMsg then true else s.done⟩ := by
  simp only [streamSend]
  split_ifs <;> rfl

lemma foldl_streamSend_buffer :
    ∀ (msgs : List Str) (s : Stream), (msgs.foldl streamSend s).buffer = s.buffer ++ msgs := by
  intro msgs
  induction msgs with
  | nil => intro s; simp
  | cons m rest ih =>
    intro s
    rw [List.foldl_cons, ih, streamSend_eq]
    simp

lemma foldl_streamSend_done_false :
    ∀ (msgs : List Str) (s : Stream), doneMsg ∉ msgs → s.done = false →
      (msgs.foldl streamSend s).done = false := by
  intro msgs
  induction msgs with
  | nil => intro s _ hs; simpa using hs
  | cons m rest ih =>
    intro s hmem hs
    rw [List.foldl_cons]
    apply ih
    · exact fun hc => hmem (List.mem_cons_of_mem m hc)
    · rw [streamSend_eq]
      have : ¬ m = doneMsg := fun hc => hmem (hc ▸ List.mem_cons_self m rest)
      simp [this, hs]

lemma foldl_streamSend_client :
    ∀ (msgs : List Str) (s : Stream) (j : Nat) (c : Client),
      s.clients.get? j = some c →
      (msgs.foldl streamSend s).clients.get? j =
        some (msgs.foldl (fun cl m => pushClient m cl) c) := by
  intro msgs
  induction msgs with
  | nil => intro s j c hc; simpa using hc
  | cons m rest ih =>
    intro s j c hc
    rw [List.foldl_cons, List.foldl_cons]
    apply ih
    rw [streamSend_eq]
    simp only [List.get?_map, hc, Option.map_some']

lemma foldl_push_sub :
    ∀ (msgs : List Str) (c : Client), ∃ t, t.Sublist msgs ∧
      msgs.foldl (fun cl m => pushClient m cl) c = ⟨c.ch ++ t⟩ := by
  intro msgs
  induction msgs with
  | nil =>
    intro c
    exact ⟨[], by simp, by cases c; simp⟩
  | cons m rest ih =>
    intro c
    rw [List.foldl_cons]
    by_cases hlen : c.ch.length < clientCap
    · rcases ih ⟨c.ch ++ [m]⟩ with ⟨t, hsub, heq⟩
      refine ⟨m :: t, List.Sublist.cons₂ m hsub, ?_⟩
      rw [show pushClient m c = ⟨c.ch ++ [m]⟩ from by simp [pushClient, hlen], heq]
      simp
    · rcases ih c with ⟨t, hsub, heq⟩
      refine ⟨t, List.Sublist.cons m hsub, ?_⟩
      rw [show pushClient m c = c from by simp [pushClient, hlen]]
      exact heq

lemma hubSendAll_found {id : String} :
    ∀ (msgs : List Str) (h : Hub) (s : Stream), h.findStream id = some s →
      (hubSendAll h id msgs).findStream id = some (msgs.foldl streamSend s) := by
  intro msgs
  induction msgs with
  | nil => intro h s hf; simpa [hubSendAll] using hf
  | cons m rest ih =>
    intro h s hf
    have hsend := send_found m hf
    have hstep : ((h.send id m).1).findStream id = some (streamSend s m) := by
      rw [hsend]
      exact setStream_find _ hf
    have : hubSendAll h id (m :: rest) = hubSendAll (h.send id m).1 id rest := by
      simp [hubSendAll]
    rw [this, List.foldl_cons]
    exact ih _ _ hstep

lemma addClient_found {h : Hub} {id : String} {s : Stream}
    (hf : h.findStream id = some s) :
    (h.addClient id).2 = (⟨s.buffer⟩ : Client) ∧
    (h.addClient id).1.findStream id =
      some { s with clients := s.clients ++ [⟨s.buffer⟩] } := by
  unfold Hub.addClient
  rw [hf]
  exact ⟨rfl, setStream_find _ hf⟩

lemma addClient_not_found {h : Hub} {id : String} (hf : h.findStream id = none) :
    (h.addClient id).2 = (⟨[]⟩ : Client) ∧
    (h.addClient id).1.findStream id = some ⟨[⟨[]⟩], [], false⟩ := by
  unfold Hub.addClient
  rw [hf]
  refine ⟨rfl, ?_⟩
  have hmid : (Hub.mk (h.chans ++ [(id, freshStream)])).findStream id =
      some freshStream := by
    unfold Hub.findStream
    rw [find?_append_of_none (findStream_none_find? hf)]
    simp
  exact setStream_find _ hmid

lemma cleanup_find_aux (id : String) :
    ∀ (l : List (String × Stream)), ((l.map Prod.fst).Nodup) → ∀ {q},
      (l.find? fun p => p.1 = id) = some q →
      ((l.filter fun p => ¬(p.2.done = true ∧ p.2.clients.length = 0)).find?
          fun p => p.1 = id) =
        if q.2.done = true ∧ q.2.clients.length = 0 then none else some q := by
  intro l
  induction l with
  | nil => intro _ q hq; simp at hq
  | cons x rest ih =>
    intro hnd q hq
    simp only [List.map_cons, List.nodup_cons] at hnd
    by_cases hx : x.1 = id
    · rw [List.find?_cons_of_pos _ (by simp [hx])] at hq
      cases hq
      have hrest_none : (rest.find? fun p => p.1 = id) = none := by
        rw [List.find?_eq_none]
        intro y hy
        simp only [decide_eq_true_eq]
        intro hyid
        exact hnd.1 (List.mem_map.mpr ⟨y, hy, by rw [hyid, hx]⟩)
      have hfilt_none :
          ((rest.filter fun p => ¬(p.2.done = true ∧ p.2.clients.length = 0)).find?
            fun p => p.1 = id) = none := by
        rw [List.find?_eq_none]
        intro y hy
        have := List.find?_eq_none.mp hrest_none y (List.mem_of_mem_filter hy)
        exact this
      by_cases hkeep : x.2.done = true ∧ x.2.clients.length = 0
      · rw [if_pos hkeep, List.filter_cons_of_neg (by simp [hkeep])]
        exact hfilt_none
      · rw [if_neg hkeep, List.filter_cons_of_pos (by simp only [decide_eq_true_eq]; exact hkeep)]
        rw [List.find?_cons_of_pos _ (by simp [hx])]
    · rw [List.find?_cons_of_neg _ (by simp [hx])] at hq
      by_cases hkeep : x.2.done = true ∧ x.2.clients.length = 0
      · rw [List.filter_cons_of_neg (by simp [hkeep])]
        exact ih hnd.2 hq
      · rw [List.filter_cons_of_pos (by simp only [decide_eq_true_eq]; exact hkeep)]
        rw [List.find?_cons_of_neg _ (by simp [hx])]
        exact ih hnd.2 hq

lemma cleanup_find {h : Hub} {id : String} {s : Stream}
    (hnd : (h.chans.map Prod.fst).Nodup) (hf : h.findStream id = some s) :
    h.cleanup.findStream id =
      if s.done = true ∧ s.clients.length = 0 then none else some s := by
  unfold Hub.findStream at hf
  rcases Option.map_eq_some'.mp hf with ⟨q, hq, hq2⟩
  have hqid : q.1 = id := by
    have := List.find?_some hq
    simpa using this
  unfold Hub.cleanup Hub.findStream
  rw [cleanup_find_aux id h.chans hnd hq]
  by_cases hkeep : q.2.done = true ∧ q.2.clients.length = 0
  · rw [if_pos hkeep, if_pos (hq2 ▸ hkeep)]
    rfl
  · rw [if_neg hkeep, if_neg (hq2 ▸ hkeep)]
    simp [hq2]

lemma ginSink_some_eq (fragments : List Str) (e : Str) :
    ginSinkMessages fragments (some e) =
      ((orchRun initOrchState fragments).2.map jsonMarshalChunk) ++
        [errorMsgFor e, doneMsg] := by
  simp [ginSinkMessages, translateChunks]

lemma ginSink_none_eq (fragments : List Str) :
    ginSinkMessages fragments none =
      ((orchRun initOrchState fragments).2.map jsonMarshalChunk) ++
        ((sendFinalSections (orchRun initOrchState fragments).1.fullResponse).map
          jsonMarshalChunk) ++ [doneMsg] := by
  simp [ginSinkMessages, translateChunks]

/-- Every producer run's sink sequence is a sentinel-free prefix followed
by exactly the terminal sentinel. -/
lemma ginSink_split (fragments : List Str) (e : Option Str) :
    ∃ pre, ginSinkMessages fragments e = pre ++ [doneMsg] ∧ doneMsg ∉ pre := by
  cases e with
  | none =>
    refine ⟨_, ginSink_none_eq fragments, ?_⟩
    intro hmem
    rcases List.mem_append.mp hmem with hmem | hmem
    · rcases List.mem_map.mp hmem with ⟨c, -, hc⟩
      exact jsonMarshalChunk_ne_done c hc
    · rcases List.mem_map.mp hmem with ⟨c, -, hc⟩
      exact jsonMarshalChunk_ne_done c hc
  | some er =>
    refine ⟨(orchRun initOrchState fragments).2.map jsonMarshalChunk ++ [errorMsgFor er],
      ?_, ?_⟩
    · rw [ginSink_some_eq]
      simp
    · intro hmem
      rcases List.mem_append.mp hmem with hmem | hmem
      · rcases List.mem_map.mp hmem with ⟨c, -, hc⟩
        exact jsonMarshalChunk_ne_done c hc
      · rcases (by simpa using hmem : doneMsg = errorMsgFor er) with heq
        exact errorMsgFor_ne_done er heq.symm

/-- C4: Terminal exactly-once: for every producer invocation that
completes (success or failure) the sink sequence contains exactly one
terminal sentinel, it is the last message (hence after the error message
and any final-section replay), and replaying the producer's `Send` calls
through the hub appends the whole sequence — the sentinel exactly once —
to the job's buffer. -/
theorem terminal_exactly_once (fragments : List Str) (e : Option Str) (id : String) :
    (ginSinkMessages fragments e).count doneMsg = 1 ∧
    (ginSinkMessages fragments e).getLast? = some doneMsg ∧
    doneMsg ∉ (ginSinkMessages fragments e).dropLast ∧
    ((hubSendAll (newHub.create id) id (ginSinkMessages fragments e)).findStream id).map
      Stream.buffer = some (ginSinkMessages fragments e) := by
  rcases ginSink_split fragments e with ⟨pre, heq, hpre⟩
  refine ⟨?_, ?_, ?_, ?_⟩
  · rw [heq, List.count_append, List.count_eq_zero.mpr hpre]
    simp
  · rw [heq]
    simp
  · rw [heq, List.dropLast_concat]
    exact hpre
  · have hcreate := @create_find_self newHub id rfl
    rw [hubSendAll_found _ _ _ hcreate]
    simp [foldl_streamSend_buffer, freshStream]

/-- C3 (amended): `Hub.Send` appends to the buffer unconditionally — even
when the stream is already sealed, a subsequent `Send` still appends.
The invariant "once sealed, never appended again" holds for each job's
actual producer sequence only because the terminal sentinel is the last
message sent: replaying any producer prefix short of the full sequence
leaves the stream unsealed, so every append of the run lands on an
unsealed stream and nothing is sent after the seal. -/
theorem send_after_seal (fragments : List Str) (e : Option Str) (id : String)
    (h : Hub) (s : Stream) (m : Str) (k : Nat) :
    (h.findStream id = some s →
      ((h.send id m).1.findStream id).map Stream.buffer = some (s.buffer ++ [m])) ∧
    (ginSinkMessages fragments e).getLast? = some doneMsg ∧
    (k < (ginSinkMessages fragments e).length →
      ((hubSendAll (newHub.create id) id
          ((ginSinkMessages fragments e).take k)).findStream id).map
        Stream.done = some false) := by
  refine ⟨?_, ?_, ?_⟩
  · intro hf
    rw [send_found m hf]
    rw [setStream_find _ hf, streamSend_eq]
    rfl
  · rcases ginSink_split fragments e with ⟨pre, heq, -⟩
    rw [heq]
    simp
  · intro hk
    rcases ginSink_split fragments e with ⟨pre, heq, hpre⟩
    have hlen : (ginSinkMessages fragments e).length = pre.length + 1 := by
      rw [heq]
      simp
    have htake : (ginSinkMessages fragments e).take k = pre.take k := by
      rw [heq, List.take_append_of_le_length (by omega)]
    have hnotmem : doneMsg ∉ (ginSinkMessages fragments e).take k := by
      rw [htake]
      intro hc
      exact hpre (List.take_subset k pre hc)
    have hcreate := @create_find_self newHub id rfl
    rw [hubSendAll_found _ _ _ hcreate]
    simp only [Option.map_some']
    rw [foldl_streamSend_done_false _ freshStream hnotmem rfl]

/-- Witness for C3: sending one message to a freshly created stream
appends it to the empty buffer. -/
theorem send_after_seal_witness :
    ((Hub.send (newHub.create "j") "j" doneMsg).1.findStream "j").map Stream.buffer =
      some [doneMsg] :=
  (send_after_seal [] none "j" (newHub.create "j") freshStream doneMsg 0).1 (by decide)

/-- Counterexample for C3: after the sentinel seals the stream
(`done = true`, buffer `[[DONE]]`), a further `Send` appends again — the
sealed stream's buffer grows to `[[DONE], "x"]`, refuting "once sealed,
the buffer is never appended to again by any subsequent Send call". -/
theorem send_after_seal_counterexample :
    (c3Hub1.findStream "j").map Stream.done = some true ∧
    (c3Hub1.findStream "j").map Stream.buffer = some [doneMsg] ∧
    (c3Hub2.findStream "j").map Stream.buffer = some [doneMsg, "x".toList] := by decide

/-- C7: Late-join completeness of attach: a subscriber attaching to an
existing stream receives the entire buffered backlog, in buffer order, in
its queue (the blocking replay drops nothing); any messages sent
afterwards are appended after the backlog (a sublist of them, owing to
the bounded queue), never before it; and attaching to a missing stream
creates a fresh empty stream holding just the new subscriber. -/
theorem late_join_replay (h : Hub) (id : String) (s : Stream) (msgs : List Str) :
    (h.findStream id = some s →
      (h.addClient id).2.ch = s.buffer ∧
      (h.addClient id).1.findStream id =
        some { s with clients := s.clients ++ [⟨s.buffer⟩] }) ∧
    (h.findStream id = none →
      (h.addClient id).2.ch = [] ∧
      (h.addClient id).1.findStream id = some ⟨[⟨[]⟩], [], false⟩) ∧
    (h.findStream id = some s →
      ∃ t, t.Sublist msgs ∧
        ((hubSendAll (h.addClient id).1 id msgs).findStream id).map
            (fun s' => s'.clients.get? s.clients.length) =
          some (some ⟨s.buffer ++ t⟩)) := by
  refine ⟨?_, ?_, ?_⟩
  · intro hf
    rcases addClient_found hf with ⟨h2, h1⟩
    exact ⟨by rw [h2], h1⟩
  · intro hf
    rcases addClient_not_found hf with ⟨h2, h1⟩
    exact ⟨by rw [h2], h1⟩
  · intro hf
    rcases addClient_found hf with ⟨h2, h1⟩
    have hget : ({ s with clients := s.clients ++ [⟨s.buffer⟩] } : Stream).clients.get?
        s.clients.length = some ⟨s.buffer⟩ :=
      List.get?_concat_length _ _
    rcases foldl_push_sub msgs ⟨s.buffer⟩ with ⟨t, hsub, hfold⟩
    refine ⟨t, hsub, ?_⟩
    rw [hubSendAll_found _ _ _ h1]
    simp only [Option.map_some']
    rw [foldl_streamSend_client msgs _ _ _ hget, hfold]

/-- Witness for C7: attaching to a hub with no stream for the id yields
an empty backlog and a fresh stream containing only the new subscriber. -/
theorem late_join_replay_witness :
    (newHub.addClient "j").2.ch = [] ∧
    (newHub.addClient "j").1.findStream "j" = some ⟨[⟨[]⟩], [], false⟩ :=
  (late_join_replay newHub "j" freshStream []).2.1 (by decide)

/-- C8: Send buffering and drop-on-full policy: when the stream exists,
`Send` returns a nil error and appends the message to the shared buffer
regardless of how many subscribers are attached (also for zero); each
attached subscriber is pushed to individually and non-blockingly: a
subscriber with a full queue is skipped (it keeps its queue unchanged
while the message stays in the shared buffer), one with room receives the
message at the end of its queue. -/
theorem send_buffer_drop (h : Hub) (id : String) (s : Stream) (m : Str) :
    (h.findStream id = some s →
      (h.send id m).2 = none ∧
      (h.send id m).1.findStream id =
        some ⟨s.clients.map (pushClient m), s.buffer ++ [m],
          if m = doneMsg then true else s.done⟩) ∧
    (∀ c : Client, clientCap ≤ c.ch.length → pushClient m c = c) ∧
    (∀ c : Client, c.ch.length < clientCap → pushClient m c = ⟨c.ch ++ [m]⟩) := by
  refine ⟨?_, ?_, ?_⟩
  · intro hf
    rw [send_found m hf]
    refine ⟨rfl, ?_⟩
    rw [setStream_find _ hf, streamSend_eq]
  · intro c hcap
    simp [pushClient, Nat.not_lt.mpr hcap]
  · intro c hlt
    simp [pushClient, hlt]

/-- Witness for C8: sending to a freshly created stream (zero
subscribers) returns nil and buffers the message. -/
theorem send_buffer_drop_witness :
    ((newHub.create "j").send "j" "x".toList).2 = none ∧
    ((newHub.create "j").send "j" "x".toList).1.findStream "j" =
      some ⟨[], ["x".toList], false⟩ :=
  (send_buffer_drop (newHub.create "j") "j" freshStream "x".toList).1 (by decide)

lemma setStream_keys (h : Hub) (id : String) (s' : Stream) :
    (h.setStream id s').chans.map Prod.fst = h.chans.map Prod.fst := by
  unfold Hub.setStream
  rw [List.map_map]
  apply List.map_congr_left
  intro p hp
  by_cases hc : p.1 = id <;> simp [hc]

lemma not_mem_keys_of_none {h : Hub} {id : String} (hf : h.findStream id = none) :
    id ∉ h.chans.map Prod.fst := by
  intro hmem
  rcases List.mem_map.mp hmem with ⟨p, hp, hfst⟩
  have := List.find?_eq_none.mp (findStream_none_find? hf) p hp
  simp [hfst] at this

/-- Distinctness of the registry keys (the Go map's key uniqueness) is an
invariant of every hub operation, so the `Nodup` hypothesis of the reap
theorem holds for every reachable hub state. -/
lemma keys_nodup_invariant :
    (newHub.chans.map Prod.fst).Nodup ∧
    (∀ (h : Hub) (id : String), (h.chans.map Prod.fst).Nodup →
      ((h.create id).chans.map Prod.fst).Nodup) ∧
    (∀ (h : Hub) (id : String), (h.chans.map Prod.fst).Nodup →
      ((h.addClient id).1.chans.map Prod.fst).Nodup) ∧
    (∀ (h : Hub) (id : String) (m : Str), (h.chans.map Prod.fst).Nodup →
      ((h.send id m).1.chans.map Prod.fst).Nodup) ∧
    (∀ h : Hub, (h.chans.map Prod.fst).Nodup →
      (h.cleanup.chans.map Prod.fst).Nodup) := by
  refine ⟨by simp [newHub], ?_, ?_, ?_, ?_⟩
  · intro h id hnd
    unfold Hub.create
    cases hf : h.findStream id with
    | some s => exact hnd
    | none =>
      simp only [List.map_append]
      rw [List.nodup_append]
      refine ⟨hnd, by simp, ?_⟩
      intro a ha hb
      simp only [List.map_cons, List.map_nil, List.mem_singleton] at hb
      subst hb
      exact not_mem_keys_of_none hf ha
  · intro h id hnd
    unfold Hub.addClient
    cases hf : h.findStream id with
    | some s =>
      simpa [setStream_keys] using hnd
    | none =>
      rw [setStream_keys]
      simp only [List.map_append]
      rw [List.nodup_append]
      refine ⟨hnd, by simp, ?_⟩
      intro a ha hb
      simp only [List.map_cons, List.map_nil, List.mem_singleton] at hb
      subst hb
      exact not_mem_keys_of_none hf ha
  · intro h id m hnd
    cases hf : h.findStream id with
    | some s =>
      rw [send_found m hf]
      simpa [setStream_keys] using hnd
    | none =>
      rw [send_not_found m hf]
      exact hnd
  · intro h hnd
    unfold Hub.cleanup
    exact ((List.filter_sublist h.chans).map Prod.fst).nodup hnd

/-- C9: Reap safety: the sweep removes a stream exactly when it is sealed
and has zero attached subscribers; a sealed stream with at least one
subscriber survives the sweep unchanged; and attaching after a reap
behaves as if the job never existed — a fresh empty stream is allocated
and the subscriber starts from an empty backlog. -/
theorem reap_safety (h : Hub) (id : String) (s : Stream) :
    ((h.chans.map Prod.fst).Nodup → h.findStream id = some s →
      h.cleanup.findStream id =
        if s.done = true ∧ s.clients.length = 0 then none else some s) ∧
    ((h.chans.map Prod.fst).Nodup → h.findStream id = some s → s.clients ≠ [] →
      h.cleanup.findStream id = some s) ∧
    ((h.chans.map Prod.fst).Nodup → h.findStream id = some s → s.done = true →
      s.clients = [] →
      (h.cleanup.addClient id).2.ch = [] ∧
      (h.cleanup.addClient id).1.findStream id = some ⟨[⟨[]⟩], [], false⟩) := by
  refine ⟨?_, ?_, ?_⟩
  · intro hnd hf
    exact cleanup_find hnd hf
  · intro hnd hf hcl
    rw [cleanup_find hnd hf, if_neg]
    exact fun hk => hcl (List.length_eq_zero.mp hk.2)
  · intro hnd hf hdone hcl
    have hnone : h.cleanup.findStream id = none := by
      rw [cleanup_find hnd hf, if_pos ⟨hdone, by simp [hcl]⟩]
    rcases addClient_not_found hnone with ⟨h2, h1⟩
    exact ⟨by rw [h2], h1⟩

/-- Witness for C9: on a hub whose only stream is sealed with zero
subscribers, attaching after the sweep yields a fresh empty stream. -/
theorem reap_safety_witness :
    (c3Hub1.cleanup.addClient "j").2.ch = [] ∧
    (c3Hub1.cleanup.addClient "j").1.findStream "j" = some ⟨[⟨[]⟩], [], false⟩ :=
  (reap_safety c3Hub1 "j" ⟨[], [doneMsg], true⟩).2.2 (by decide) (by decide) rfl rfl

/-- C10: Send to a job id with no stream (never created or already
reaped) returns success (nil error) and discards the message entirely:
the hub state is unchanged, and a subscriber attaching afterwards starts
from an empty backlog, never seeing the message. -/
theorem send_missing_stream (h : Hub) (id : String) (m : Str) :
    h.findStream id = none →
      h.send id m = (h, none) ∧
      ((h.send id m).1.addClient id).2.ch = [] ∧
      ((h.send id m).1.addClient id).1.findStream id = some ⟨[⟨[]⟩], [], false⟩ := by
  intro hf
  have hs := send_not_found m hf
  rcases addClient_not_found hf with ⟨h2, h1⟩
  refine ⟨hs, ?_, ?_⟩
  · rw [hs]
    rw [h2]
  · rw [hs]
    exact h1

/-- Witness for C10: sending to an empty hub is a silent no-op with a nil
error. -/
theorem send_missing_stream_witness :
    newHub.send "j" "x".toList = (newHub, none) :=
  (send_missing_stream newHub "j" "x".toList rfl).1

end CodeBridge
